import Mathlib

/-!
Verification of the Upgrade Path Engine of `app/compatibility/graph.py`.

The engine builds one directed graph per hardware model from two database
tables (upgrade paths and version compatibilities), finds shortest upgrade
paths, expands them with mandatory intermediate versions, and aggregates
risk and downtime over the resulting steps.

The embedding below mirrors the Python module:
* `DiGraph` models the `networkx.DiGraph` as used here: an insertion-ordered
  node list and an insertion-ordered edge list with unique `(from, to)` keys;
  `add_edge` on an existing key replaces its attribute data in place (the
  Python call overwrites every attribute key the engine ever sets).
* Database rows become records; a `DB` value holds the three tables, and the
  `WHERE` clauses of the queries in `build_graph_from_db` become filters.
* Python dictionaries keyed by ids (`version_map`, `model_graphs`) become
  insertion-ordered association lists with Python `dict` update semantics.
* `None`-able Python values become `Option`; Python falsiness tests on lists
  (`if not path_edges`) are modelled exactly as emptiness-or-`none` tests.
-/

namespace UpgradeEngine

/-- A row of the `software_versions` table (the columns the engine reads). -/
structure VersionRow where
  id : Nat
  model_id : Option Nat
  version_string : String
  normalized_version : Option String
  eol_status : String
  eol_date : Option Int
  deriving Repr, DecidableEq

/-- A row of the `upgrade_paths` table. Nullable columns are `Option`. -/
structure UpgradePathRow where
  id : Nat
  model_id : Nat
  from_version_id : Nat
  to_version_id : Nat
  mandatory_intermediate_version_ids : Option (List Nat)
  notes : Option String
  risk_level : Option String
  estimated_downtime_minutes : Option Int
  requires_backup : Option Bool
  requires_reboot : Option Bool
  deriving Repr, DecidableEq

/-- A row of the `model_version_compatibility` table. -/
structure CompatRow where
  id : Nat
  model_id : Nat
  from_version_id : Nat
  to_version_id : Nat
  allowed : Bool
  notes : Option String
  deriving Repr, DecidableEq

/-- The edge attribute bag set by `build_graph_from_db`.  Upgrade-path edges
set `path_id`; compatibility edges set `compatibility_id`.  Keys the code
reads with `.get(key, default)` and that one of the two writers omits are
flattened into the value that `.get` observes: a compatibility edge stores
`mandatory_intermediates` as `[]` and `estimated_downtime_minutes` as `none`,
exactly what the absent keys yield at every read site. -/
structure EdgeData where
  path_id : Option Nat
  compatibility_id : Option Nat
  mandatory_intermediates : List Nat
  risk_level : String
  notes : Option String
  estimated_downtime_minutes : Option Int
  requires_backup : Option Bool
  requires_reboot : Option Bool
  deriving Repr, DecidableEq

/-- The slice of a `networkx.DiGraph` the engine uses: nodes in insertion
order, edges in insertion order keyed by the `(from, to)` pair. -/
structure DiGraph where
  nodes : List Nat
  edges : List ((Nat × Nat) × EdgeData)
  deriving Repr, DecidableEq

/-- The empty graph, `nx.DiGraph()`. -/
def DiGraph.empty : DiGraph := { nodes := [], edges := [] }

/-- Python `graph.add_node(v)`: appends `v` unless already present. -/
def DiGraph.addNode (g : DiGraph) (v : Nat) : DiGraph :=
  if v ∈ g.nodes then g else { g with nodes := g.nodes ++ [v] }

/-- Python `graph.has_edge(u, v)`. -/
def DiGraph.hasEdge (g : DiGraph) (u v : Nat) : Bool :=
  g.edges.any (fun e => e.1 = (u, v))

/-- Python `graph.add_edge(u, v, **attrs)`: adds missing endpoint nodes, then either
replaces the data of an existing `(u, v)` edge in place or appends a new
edge.  (Both call sites pass every attribute key they ever set, so the
Python attribute-dict merge is a full replacement.) -/
def DiGraph.addEdge (g : DiGraph) (u v : Nat) (d : EdgeData) : DiGraph :=
  let g := (g.addNode u).addNode v
  if g.hasEdge u v then
    { g with edges := g.edges.map (fun e => if e.1 = (u, v) then ((u, v), d) else e) }
  else
    { g with edges := g.edges ++ [((u, v), d)] }

/-- Python `graph.get_edge_data(u, v)`: data of the `(u, v)` edge, if present. -/
def DiGraph.getEdgeData (g : DiGraph) (u v : Nat) : Option EdgeData :=
  (g.edges.find? (fun e => e.1 = (u, v))).map (fun e => e.2)

/-- Successors of `u` in adjacency insertion order: in `networkx` the
successor dict of `u` lists targets in the order the out-edges of `u` were
inserted, which is their order in the global insertion-ordered edge list. -/
def DiGraph.succs (g : DiGraph) (u : Nat) : List Nat :=
  (g.edges.filter (fun e => e.1.1 = u)).map (fun e => e.1.2)

/-- Insertion-ordered association list lookup (`d.get(k)` / `k in d`). -/
def dictGet {α : Type} (l : List (Nat × α)) (k : Nat) : Option α :=
  (l.find? (fun e => e.1 = k)).map (fun e => e.2)

/-- Python `d[k] = v`: replace in place if the key exists, else append. -/
def dictSet {α : Type} (l : List (Nat × α)) (k : Nat) (v : α) : List (Nat × α) :=
  if l.any (fun e => e.1 = k) then
    l.map (fun e => if e.1 = k then (k, v) else e)
  else
    l ++ [(k, v)]

/-- Python `d.update(m)`: set every entry of `m` into `d`, in order. -/
def dictUpdate {α : Type} (l m : List (Nat × α)) : List (Nat × α) :=
  m.foldl (fun acc e => dictSet acc e.1 e.2) l

/-- The value stored in `version_map` for one version row. -/
structure VersionData where
  id : Nat
  version_string : String
  normalized_version : Option String
  eol_status : String
  eol_date : Option Int
  deriving Repr, DecidableEq

/-- The dict built from a version row in `build_graph_from_db`. -/
def versionDataOf (v : VersionRow) : VersionData :=
  { id := v.id
    version_string := v.version_string
    normalized_version := v.normalized_version
    eol_status := v.eol_status
    eol_date := v.eol_date }

/-- The three tables the engine queries. -/
structure DB where
  software_versions : List VersionRow
  upgrade_paths : List UpgradePathRow
  compatibilities : List CompatRow
  deriving Repr

/-- The `SELECT ... WHERE model_id == m` over `software_versions`. The query
also orders by `normalized_version`; that order only determines node
insertion order, which no operation of the engine observes (adjacency order
comes from edge insertion), so rows are kept in table order. -/
def DB.versionsFor (db : DB) (m : Nat) : List VersionRow :=
  db.software_versions.filter (fun v => v.model_id = some m)

/-- The `SELECT ... WHERE model_id == m` over `upgrade_paths`. -/
def DB.pathsFor (db : DB) (m : Nat) : List UpgradePathRow :=
  db.upgrade_paths.filter (fun p => p.model_id = m)

/-- The `SELECT ... WHERE model_id == m AND allowed == True` over
`model_version_compatibility`. -/
def DB.compatsFor (db : DB) (m : Nat) : List CompatRow :=
  db.compatibilities.filter (fun c => c.model_id = m && c.allowed)

/-- Python `x or 'LOW'` on a nullable string: `None` and `""` are falsy. -/
def riskOrLow (o : Option String) : String :=
  match o with
  | none => "LOW"
  | some s => if s = "" then "LOW" else s

/-- Python `x or []` on a nullable list: `None` and `[]` both give `[]`. -/
def listOrNil (o : Option (List Nat)) : List Nat :=
  match o with
  | none => []
  | some l => l

/-- The edge attributes set for an upgrade-path row. -/
def pathEdgeData (p : UpgradePathRow) : EdgeData :=
  { path_id := some p.id
    compatibility_id := none
    mandatory_intermediates := listOrNil p.mandatory_intermediate_version_ids
    risk_level := riskOrLow p.risk_level
    notes := p.notes
    estimated_downtime_minutes := p.estimated_downtime_minutes
    requires_backup := p.requires_backup
    requires_reboot := p.requires_reboot }

/-- The edge attributes set for a compatibility row (`risk_level='LOW'`,
`requires_backup=True`, `requires_reboot=True`; no intermediates key and no
downtime key, which every read observes as `[]` and `none`). -/
def compatEdgeData (c : CompatRow) : EdgeData :=
  { path_id := none
    compatibility_id := some c.id
    mandatory_intermediates := []
    risk_level := "LOW"
    notes := c.notes
    estimated_downtime_minutes := none
    requires_backup := some true
    requires_reboot := some true }

/-- The mutable state of an `UpgradePathEngine` instance: `version_map` and
`model_graphs`, both Python dicts. -/
structure EngineState where
  version_map : List (Nat × VersionData)
  model_graphs : List (Nat × DiGraph)
  deriving Repr

/-- Python `UpgradePathEngine()`: empty dicts. -/
def EngineState.init : EngineState := { version_map := [], model_graphs := [] }

/-- The graph-construction loop body over the fetched rows: add one node per
version, then one edge per upgrade-path row, then one edge per allowed
compatibility row unless an edge for that pair already exists. -/
def buildGraph (versions : List VersionRow) (paths : List UpgradePathRow)
    (compats : List CompatRow) : DiGraph :=
  let g := versions.foldl (fun g v => g.addNode v.id) DiGraph.empty
  let g := paths.foldl
    (fun g p => g.addEdge p.from_version_id p.to_version_id (pathEdgeData p)) g
  compats.foldl
    (fun g c =>
      if g.hasEdge c.from_version_id c.to_version_id then g
      else g.addEdge c.from_version_id c.to_version_id (compatEdgeData c)) g

/-- Python `build_graph_from_db(db, model_id)`: fetch the model's rows; if there are
no versions, log a warning and return with the state untouched (no cache
entry is written); otherwise build the graph, store it under `model_id` in
`model_graphs`, and `update` the shared `version_map`. -/
def build_graph_from_db (db : DB) (model_id : Nat) (s : EngineState) : EngineState :=
  let versions := db.versionsFor model_id
  if versions = [] then s
  else
    let graph := buildGraph versions (db.pathsFor model_id) (db.compatsFor model_id)
    let version_map := versions.foldl (fun vm v => dictSet vm v.id (versionDataOf v)) []
    { model_graphs := dictSet s.model_graphs model_id graph
      version_map := dictUpdate s.version_map version_map }

/-- Modelled from the spec: the repository calls `nx.shortest_path(graph,
from, to)` from the networkx library, whose source is not part of this
repository.  The spec fixes the primitive as an unweighted breadth-first
search over the directed graph with neighbors visited in edge-insertion
order for deterministic tie-breaking.  `visitStep` handles one successor `w`
reached over the stored (reversed) path `q`: if `w` is not yet visited it is
appended to the visited list and, paired with its extended path, to the next
frontier. -/
def visitStep (q : List Nat) (acc : List Nat × List (Nat × List Nat)) (w : Nat) :
    List Nat × List (Nat × List Nat) :=
  if w ∈ acc.1 then acc else (acc.1 ++ [w], acc.2 ++ [(w, w :: q)])

/-- Modelled from the spec: expand one frontier entry, visiting its
successors in edge-insertion order. -/
def expandNode (g : DiGraph) (acc : List Nat × List (Nat × List Nat))
    (np : Nat × List Nat) : List Nat × List (Nat × List Nat) :=
  (g.succs np.1).foldl (visitStep np.2) acc

/-- Modelled from the spec: one BFS level: scan the frontier in discovery
order and collect the next frontier together with the grown visited list. -/
def expandLevel (g : DiGraph) (visited : List Nat)
    (frontier : List (Nat × List Nat)) : List Nat × List (Nat × List Nat) :=
  frontier.foldl (expandNode g) (visited, [])

/-- Modelled from the spec: the BFS main loop.  At each level it first looks
for the target in the frontier (in discovery order) and returns its recorded
path; otherwise it expands one level and continues.  The fuel argument only
bounds the number of levels for totality; `g.edges.length + 1` levels always
suffice (proved below). -/
def bfsLoop (g : DiGraph) (target : Nat) :
    Nat → List Nat → List (Nat × List Nat) → Option (List Nat)
  | 0, _, _ => none
  | fuel + 1, visited, frontier =>
    match frontier.find? (fun np => np.1 = target) with
    | some np => some np.2.reverse
    | none =>
      let vf := expandLevel g visited frontier
      if vf.2 = [] then none
      else bfsLoop g target fuel vf.1 vf.2

/-- Modelled from the spec: `nx.shortest_path(g, source, target)` without
weights returns the node list of a minimum-hop path, found breadth-first
with neighbors in edge-insertion order (`some` here; the Python function
raises `NetworkXNoPath`, caught by the caller, where this returns `none`). -/
def shortest_path (g : DiGraph) (source target : Nat) : Option (List Nat) :=
  bfsLoop g target (g.edges.length + 1) [source] [(source, [source])]

/-- Modelled from the spec: `nx.has_path(g, u, v)` is exactly whether the
shortest-path search succeeds. -/
def has_path (g : DiGraph) (u v : Nat) : Bool :=
  (shortest_path g u v).isSome

/-- Python `find_upgrade_path(model_id, from_version_id, to_version_id)`: returns
`none` when the model has no cached graph, when either endpoint is not a
node, or when no path exists; otherwise the shortest path converted to the
list of its consecutive `(from, to)` pairs. -/
def find_upgrade_path (s : EngineState)
    (model_id from_version_id to_version_id : Nat) : Option (List (Nat × Nat)) :=
  match dictGet s.model_graphs model_id with
  | none => none
  | some graph =>
    if from_version_id ∉ graph.nodes ∨ to_version_id ∉ graph.nodes then none
    else
      match shortest_path graph from_version_id to_version_id with
      | none => none
      | some path_nodes => some (path_nodes.zip path_nodes.tail)

/-- Python `expand_path_with_intermediates(model_id, path_edges)`: each edge with a
non-empty `mandatory_intermediates` attribute is replaced by the chain
through its intermediates; edges without graph data or with an empty
attribute pass through unchanged; a missing model graph returns the input. -/
def expand_path_with_intermediates (s : EngineState) (model_id : Nat)
    (path_edges : List (Nat × Nat)) : List (Nat × Nat) :=
  match dictGet s.model_graphs model_id with
  | none => path_edges
  | some graph =>
    path_edges.foldl
      (fun expanded e =>
        match graph.getEdgeData e.1 e.2 with
        | none => expanded ++ [e]
        | some d =>
          if d.mandatory_intermediates = [] then expanded ++ [e]
          else
            let r := d.mandatory_intermediates.foldl
              (fun (acc : List (Nat × Nat) × Nat) i => (acc.1 ++ [(acc.2, i)], i))
              (expanded, e.1)
            r.1 ++ [(r.2, e.2)])
      []

/-- One step of `get_path_details`: the dict built per `(from, to)` hop. -/
structure Step where
  from_version_id : Nat
  to_version_id : Nat
  from_version : Option String
  to_version : Option String
  risk_level : String
  notes : Option String
  estimated_downtime_minutes : Option Int
  requires_backup : Option Bool
  requires_reboot : Option Bool
  mandatory_intermediates : List Nat
  deriving Repr, DecidableEq

/-- Python `get_path_details(model_id, path_edges)`: one step per hop; a hop with no
edge in the graph gets the `.get` defaults (`risk_level='LOW'`,
`requires_backup=True`, `requires_reboot=True`, no notes, no downtime, empty
intermediates); version strings come from `version_map` when present. -/
def get_path_details (s : EngineState) (model_id : Nat)
    (path_edges : List (Nat × Nat)) : List Step :=
  match dictGet s.model_graphs model_id with
  | none => []
  | some graph =>
    path_edges.map (fun e =>
      let from_version := (dictGet s.version_map e.1).map (fun v => v.version_string)
      let to_version := (dictGet s.version_map e.2).map (fun v => v.version_string)
      match graph.getEdgeData e.1 e.2 with
      | some d =>
        { from_version_id := e.1
          to_version_id := e.2
          from_version := from_version
          to_version := to_version
          risk_level := d.risk_level
          notes := d.notes
          estimated_downtime_minutes := d.estimated_downtime_minutes
          requires_backup := d.requires_backup
          requires_reboot := d.requires_reboot
          mandatory_intermediates := d.mandatory_intermediates }
      | none =>
        { from_version_id := e.1
          to_version_id := e.2
          from_version := from_version
          to_version := to_version
          risk_level := "LOW"
          notes := none
          estimated_downtime_minutes := none
          requires_backup := some true
          requires_reboot := some true
          mandatory_intermediates := [] })

/-- Python `calculate_overall_risk(steps)`: `HIGH` if any step is `HIGH`, else `MED`
if any step is `MED`, else `LOW`. -/
def calculate_overall_risk (steps : List Step) : String :=
  let risk_levels := steps.map (fun st => st.risk_level)
  if "HIGH" ∈ risk_levels then "HIGH"
  else if "MED" ∈ risk_levels then "MED"
  else "LOW"

/-- Python `calculate_total_downtime(steps)`: sum of the non-null estimates, or
`none` when every estimate is null. -/
def calculate_total_downtime (steps : List Step) : Option Int :=
  let r := steps.foldl
    (fun (acc : Int × Bool) st =>
      match st.estimated_downtime_minutes with
      | none => acc
      | some d => (acc.1 + d, true))
    (0, false)
  if r.2 then some r.1 else none

/-- The dict returned by `compute_upgrade_path`. -/
structure UpgradePathResult where
  model_id : Nat
  from_version_id : Nat
  to_version_id : Nat
  steps : List Step
  overall_risk : String
  total_estimated_downtime_minutes : Option Int
  step_count : Nat
  deriving Repr, DecidableEq

/-- Python `compute_upgrade_path(db, model_id, from, to)`: builds the model's graph
when absent from the cache, then finds, expands and details the path.  The
Python guard `if not path_edges: return None` is falsy both for `None` and
for the empty list, so both fall into the `none` branch here. -/
def compute_upgrade_path (db : DB) (model_id from_version_id to_version_id : Nat)
    (s : EngineState) : EngineState × Option UpgradePathResult :=
  let s := if (dictGet s.model_graphs model_id).isNone
    then build_graph_from_db db model_id s else s
  match find_upgrade_path s model_id from_version_id to_version_id with
  | none => (s, none)
  | some path_edges =>
    if path_edges = [] then (s, none)
    else
      let expanded_path := expand_path_with_intermediates s model_id path_edges
      let steps := get_path_details s model_id expanded_path
      (s, some
        { model_id := model_id
          from_version_id := from_version_id
          to_version_id := to_version_id
          steps := steps
          overall_risk := calculate_overall_risk steps
          total_estimated_downtime_minutes := calculate_total_downtime steps
          step_count := steps.length })

/-- The distinct `f`-string failure messages of `validate_path`, one
constructor per format string, carrying the interpolated ids. -/
inductive ValidateError where
  | noGraphAvailable (model_id : Nat)
  | sourceVersionNotFound (version_id : Nat)
  | targetVersionNotFound (version_id : Nat)
  | noUpgradePathExists (from_version_id to_version_id : Nat)
  deriving Repr, DecidableEq

/-- Python `validate_path(model_id, from, to)`: a read-only query against the
current cache (it takes the state and returns only the verdict, mirroring
the source method, which performs no build and no mutation). -/
def validate_path (s : EngineState)
    (model_id from_version_id to_version_id : Nat) : Bool × Option ValidateError :=
  match dictGet s.model_graphs model_id with
  | none => (false, some (ValidateError.noGraphAvailable model_id))
  | some graph =>
    if from_version_id ∉ graph.nodes then
      (false, some (ValidateError.sourceVersionNotFound from_version_id))
    else if to_version_id ∉ graph.nodes then
      (false, some (ValidateError.targetVersionNotFound to_version_id))
    else if ¬ has_path graph from_version_id to_version_id then
      (false, some (ValidateError.noUpgradePathExists from_version_id to_version_id))
    else
      (true, none)

/-! ### Reachability and walk predicates used to state the specification -/

/-- The relation `Reach g u w n`: the graph has a directed walk of exactly `n` edges from
`u` to `w`. -/
inductive Reach (g : DiGraph) : Nat → Nat → Nat → Prop
  | refl (u : Nat) : Reach g u u 0
  | step {u v w n : Nat} : g.hasEdge u v = true → Reach g v w n → Reach g u w (n + 1)

/-- A node list is a chain when every consecutive pair is an edge. -/
def chainB (g : DiGraph) : List Nat → Bool
  | a :: b :: l => g.hasEdge a b && chainB g (b :: l)
  | _ => true

/-- The relation `RPath g u p w`: `p` is the reversed node list of a walk from `u` ending
at `w` (so `p` has head `w` and last element `u`), as stored by the BFS. -/
inductive RPath (g : DiGraph) (u : Nat) : List Nat → Nat → Prop
  | base : RPath g u [u] u
  | snoc {p : List Nat} {x w : Nat} :
      RPath g u p x → g.hasEdge x w = true → RPath g u (w :: p) w

/-- Every node the BFS ever visits is the source or the target of an edge. -/
def targetsFrom (g : DiGraph) (u : Nat) : List Nat :=
  u :: g.edges.map (fun e => e.1.2)


/-- The invariant after `k` BFS levels: the visited list holds exactly the
nodes within distance `k` of `u`, each frontier entry stores a valid
reversed walk of exactly `k` edges, every node at distance exactly `k` is on
the frontier, the visited list has no duplicates, lies inside
`targetsFrom g u`, and has grown at least once per level. -/
structure BfsInv (g : DiGraph) (u : Nat) (k : Nat)
    (visited : List Nat) (frontier : List (Nat × List Nat)) : Prop where
  vis_iff : ∀ w, w ∈ visited ↔ ∃ m ≤ k, Reach g u w m
  fr_path : ∀ e ∈ frontier, RPath g u e.2 e.1 ∧ e.2.length = k + 1
  fr_cover : ∀ w, (∃ m ≤ k, Reach g u w m) →
    (∃ m < k, Reach g u w m) ∨ w ∈ frontier.map Prod.fst
  vis_nodup : visited.Nodup
  vis_sub : ∀ x ∈ visited, x ∈ targetsFrom g u
  vis_len : k + 1 ≤ visited.length


/-! ### Concrete fixtures exercising the engine (used by the witnesses and
counterexamples below) -/

/-- Fixture: a version row of a model. -/
def mkVersionRow (i m : Nat) (s : String) : VersionRow :=
  { id := i, model_id := some m, version_string := s, normalized_version := some s,
    eol_status := "UNKNOWN", eol_date := none }

/-- Fixture: an upgrade-path row without a downtime estimate. -/
def mkPathRow (i m f t : Nat) (mi : List Nat) (r : String) : UpgradePathRow :=
  { id := i, model_id := m, from_version_id := f, to_version_id := t,
    mandatory_intermediate_version_ids := some mi, notes := none,
    risk_level := some r, estimated_downtime_minutes := none,
    requires_backup := some true, requires_reboot := some true }

/-- Fixture: a compatibility row with `allowed = true`. -/
def mkCompatRow (i m f t : Nat) : CompatRow :=
  { id := i, model_id := m, from_version_id := f, to_version_id := t,
    allowed := true, notes := none }

/-- Fixture for spec scenario 2: model 1 with versions 1, 2, 3, LOW edges
1→2 and 2→3, and a HIGH edge 1→3 with mandatory intermediate 2. -/
def scenario2DB : DB :=
  { software_versions :=
      [mkVersionRow 1 1 "4.0.0", mkVersionRow 2 1 "4.1.0", mkVersionRow 3 1 "4.2.0"],
    upgrade_paths :=
      [mkPathRow 1 1 1 2 [] "LOW", mkPathRow 2 1 2 3 [] "LOW",
        mkPathRow 3 1 1 3 [2] "HIGH"],
    compatibilities := [] }

/-- Fixture: the engine state after building the scenario-2 graph. -/
def scenario2State : EngineState :=
  build_graph_from_db scenario2DB 1 EngineState.init

/-- Fixture: the scenario-2 graph itself. -/
def scenario2Graph : DiGraph :=
  buildGraph (scenario2DB.versionsFor 1) (scenario2DB.pathsFor 1)
    (scenario2DB.compatsFor 1)

/-- Fixture for spec scenario 3: an upgrade-path row 2→3 (MED risk, 15
minutes) and a compatibility row for the same pair, on model 3. -/
def scenario3PathRow : UpgradePathRow :=
  { id := 9
    model_id := 3
    from_version_id := 2
    to_version_id := 3
    mandatory_intermediate_version_ids := some []
    notes := some "guide"
    risk_level := some "MED"
    estimated_downtime_minutes := some 15
    requires_backup := some true
    requires_reboot := some false }

/-- Fixture for spec scenario 3 continued: the database holding that row. -/
def scenario3DB : DB :=
  { software_versions :=
      [mkVersionRow 1 3 "a", mkVersionRow 2 3 "b", mkVersionRow 3 3 "c"],
    upgrade_paths := [scenario3PathRow],
    compatibilities := [mkCompatRow 4 3 2 3] }

/-- Fixture: model 5 with a chain 1→2→3 and an isolated version 4. -/
def disconnectedDB : DB :=
  { software_versions :=
      [mkVersionRow 1 5 "a", mkVersionRow 2 5 "b", mkVersionRow 3 5 "c",
        mkVersionRow 4 5 "d"],
    upgrade_paths := [mkPathRow 1 5 1 2 [] "LOW", mkPathRow 2 5 2 3 [] "LOW"],
    compatibilities := [] }

/-- Fixture: the engine state after building the disconnected graph. -/
def disconnectedState : EngineState :=
  build_graph_from_db disconnectedDB 5 EngineState.init

/-- Fixture: the disconnected graph itself. -/
def disconnectedGraph : DiGraph :=
  buildGraph (disconnectedDB.versionsFor 5) (disconnectedDB.pathsFor 5)
    (disconnectedDB.compatsFor 5)

/-- Fixture: model 6 with a single version and no edges. -/
def singleVersionDB : DB :=
  { software_versions := [mkVersionRow 1 6 "1.0"],
    upgrade_paths := [], compatibilities := [] }

/-- Fixture: an empty database. -/
def emptyDB : DB :=
  { software_versions := [], upgrade_paths := [], compatibilities := [] }

/-- Fixture: two models with one version each. -/
def twoModelDB : DB :=
  { software_versions := [mkVersionRow 1 1 "1.0", mkVersionRow 2 2 "2.0"],
    upgrade_paths := [], compatibilities := [] }

/-- Fixture: a path step carrying only a downtime estimate. -/
def stepWithDowntime (d : Option Int) : Step :=
  { from_version_id := 0, to_version_id := 1, from_version := none,
    to_version := none, risk_level := "LOW", notes := none,
    estimated_downtime_minutes := d, requires_backup := some true,
    requires_reboot := some true, mandatory_intermediates := [] }


theorem Reach.zero_eq {g : DiGraph} {u w : Nat} (h : Reach g u w 0) : w = u := by
  cases h
  rfl

theorem Reach.snoc {g : DiGraph} {u x w n : Nat}
    (h : Reach g u x n) (he : g.hasEdge x w = true) : Reach g u w (n + 1) := by
  induction h with
  | refl => exact Reach.step he (Reach.refl w)
  | step he2 _ ih => exact Reach.step he2 (ih he)

theorem Reach.trans {g : DiGraph} {u x w a b : Nat}
    (h1 : Reach g u x a) (h2 : Reach g x w b) : Reach g u w (a + b) := by
  induction h1 with
  | refl => simpa using h2
  | step he _ ih =>
    have := Reach.step he (ih h2)
    simpa [Nat.add_right_comm] using this

/-- Splitting off the first `j` edges of a walk. -/
theorem Reach.split {g : DiGraph} {u w n : Nat} (j : Nat)
    (h : Reach g u w n) (hj : j ≤ n) :
    ∃ x, Reach g u x j ∧ Reach g x w (n - j) := by
  induction j generalizing u n with
  | zero => exact ⟨u, Reach.refl u, by simpa using h⟩
  | succ j ih =>
    cases h with
    | refl => omega
    | step he htail =>
      rename_i v n0
      have hj0 : j ≤ n0 := by omega
      obtain ⟨x, hx1, hx2⟩ := ih htail hj0
      refine ⟨x, Reach.step he hx1, ?_⟩
      have heq : n0 + 1 - (j + 1) = n0 - j := by omega
      rw [heq]
      exact hx2

theorem RPath.length_pos {g : DiGraph} {u : Nat} {p : List Nat} {w : Nat}
    (h : RPath g u p w) : 0 < p.length := by
  cases h with
  | base => exact Nat.one_pos
  | snoc hp he => exact Nat.succ_pos _

theorem RPath.head {g : DiGraph} {u : Nat} {p : List Nat} {w : Nat}
    (h : RPath g u p w) : p.head? = some w := by
  cases h with
  | base => rfl
  | snoc hp he => rfl

theorem RPath.last {g : DiGraph} {u : Nat} {p : List Nat} {w : Nat}
    (h : RPath g u p w) : p.getLast? = some u := by
  induction h with
  | base => rfl
  | @snoc p0 x0 w0 hp he ih =>
    have : (w0 :: p0).getLast? = p0.getLast? := by
      cases p0 with
      | nil => exact absurd hp.length_pos (by simp)
      | cons a l => simp [List.getLast?_cons_cons]
    rw [this, ih]

theorem RPath.reach {g : DiGraph} {u : Nat} {p : List Nat} {w : Nat}
    (h : RPath g u p w) : Reach g u w (p.length - 1) := by
  induction h with
  | base => exact Reach.refl u
  | @snoc p0 x0 w0 hp he ih =>
    have hlen : 0 < p0.length := hp.length_pos
    have := Reach.snoc ih he
    have hcast : p0.length - 1 + 1 = (w0 :: p0).length - 1 := by
      simp only [List.length_cons]
      omega
    simpa [hcast] using this

theorem chainB_append {g : DiGraph} {xs : List Nat} {x w : Nat}
    (hc : chainB g xs = true) (hlast : xs.getLast? = some x)
    (he : g.hasEdge x w = true) : chainB g (xs ++ [w]) = true := by
  induction xs generalizing x with
  | nil => simp at hlast
  | cons a l ih =>
    cases l with
    | nil =>
      simp at hlast
      subst hlast
      simpa [chainB] using he
    | cons b l2 =>
      have hc2 : g.hasEdge a b = true ∧ chainB g (b :: l2) = true := by
        simpa [chainB, Bool.and_eq_true] using hc
      have hlast2 : (b :: l2).getLast? = some x := by
        simpa [List.getLast?_cons_cons] using hlast
      have := ih hc2.2 hlast2 he
      simpa [chainB, Bool.and_eq_true] using ⟨hc2.1, this⟩

theorem RPath.chain {g : DiGraph} {u : Nat} {p : List Nat} {w : Nat}
    (h : RPath g u p w) : chainB g p.reverse = true := by
  induction h with
  | base => rfl
  | snoc hp he ih =>
    rename_i p0 x0 w0
    have hlast : p0.reverse.getLast? = some x0 := by
      rw [List.getLast?_reverse]
      exact hp.head
    simpa using chainB_append ih hlast he

/-- A chain from `u` to `w` yields a walk of `length - 1` edges. -/
theorem chainB_reach {g : DiGraph} (p : List Nat) (u w : Nat)
    (hc : chainB g p = true) (hh : p.head? = some u) (hl : p.getLast? = some w) :
    Reach g u w (p.length - 1) := by
  induction p generalizing u with
  | nil => simp at hh
  | cons a l ih =>
    have ha : a = u := by simpa using hh
    subst ha
    cases l with
    | nil =>
      have haw : a = w := by simpa using hl
      subst haw
      exact Reach.refl a
    | cons b l2 =>
      have hc2 : g.hasEdge a b = true ∧ chainB g (b :: l2) = true := by
        simpa [chainB, Bool.and_eq_true] using hc
      have hl2 : (b :: l2).getLast? = some w := by
        simpa [List.getLast?_cons_cons] using hl
      have hrec := ih b hc2.2 rfl hl2
      have := Reach.step hc2.1 hrec
      simpa using this

theorem mem_succs_iff {g : DiGraph} {u w : Nat} :
    w ∈ g.succs u ↔ g.hasEdge u w = true := by
  simp only [DiGraph.succs, DiGraph.hasEdge, List.mem_map, List.mem_filter,
    List.any_eq_true, decide_eq_true_eq]
  constructor
  · rintro ⟨e, ⟨he, h1⟩, h2⟩
    exact ⟨e, he, by rw [Prod.ext_iff]; exact ⟨h1, h2⟩⟩
  · rintro ⟨e, he, hk⟩
    exact ⟨e, ⟨he, by rw [hk]⟩, by rw [hk]⟩

/-! ### Lemmas about one BFS level -/

theorem visitStep_foldl_mem_vis {q : List Nat} (ws : List Nat)
    (acc : List Nat × List (Nat × List Nat)) {x : Nat} (hx : x ∈ acc.1) :
    x ∈ (ws.foldl (visitStep q) acc).1 := by
  induction ws generalizing acc with
  | nil => exact hx
  | cons w ws ih =>
    simp only [List.foldl_cons]
    apply ih
    by_cases hmem : w ∈ acc.1
    · simpa [visitStep, hmem] using hx
    · simp only [visitStep, if_neg hmem]
      exact List.mem_append_left _ hx

theorem visitStep_foldl_mem_fr {q : List Nat} (ws : List Nat)
    (acc : List Nat × List (Nat × List Nat)) {e : Nat × List Nat} (he : e ∈ acc.2) :
    e ∈ (ws.foldl (visitStep q) acc).2 := by
  induction ws generalizing acc with
  | nil => exact he
  | cons w ws ih =>
    simp only [List.foldl_cons]
    apply ih
    by_cases hmem : w ∈ acc.1
    · simpa [visitStep, hmem] using he
    · simp only [visitStep, if_neg hmem]
      exact List.mem_append_left _ he

theorem visitStep_foldl_cover {q : List Nat} (ws : List Nat)
    (acc : List Nat × List (Nat × List Nat)) {w : Nat} (hw : w ∈ ws) :
    w ∈ (ws.foldl (visitStep q) acc).1 := by
  induction ws generalizing acc with
  | nil => simp at hw
  | cons a ws ih =>
    simp only [List.foldl_cons]
    rcases List.mem_cons.mp hw with h | h
    · subst h
      apply visitStep_foldl_mem_vis
      by_cases hmem : w ∈ acc.1
      · simp only [visitStep, if_pos hmem]
        exact hmem
      · simp only [visitStep, if_neg hmem]
        exact List.mem_append_right _ (by simp)
    · exact ih _ h

theorem visitStep_foldl_vis_src {q : List Nat} (ws : List Nat)
    (acc : List Nat × List (Nat × List Nat)) {x : Nat}
    (hx : x ∈ (ws.foldl (visitStep q) acc).1) : x ∈ acc.1 ∨ x ∈ ws := by
  induction ws generalizing acc with
  | nil => exact Or.inl hx
  | cons w ws ih =>
    simp only [List.foldl_cons] at hx
    rcases ih _ hx with h | h
    · by_cases hmem : w ∈ acc.1
      · simp only [visitStep, if_pos hmem] at h
        exact Or.inl h
      · simp only [visitStep, if_neg hmem] at h
        rcases List.mem_append.mp h with h2 | h2
        · exact Or.inl h2
        · simp at h2
          subst h2
          exact Or.inr (by simp)
    · exact Or.inr (List.mem_cons_of_mem _ h)

theorem visitStep_foldl_fr_src {q : List Nat} (ws : List Nat)
    (acc : List Nat × List (Nat × List Nat)) {e : Nat × List Nat}
    (he : e ∈ (ws.foldl (visitStep q) acc).2) :
    e ∈ acc.2 ∨ ∃ w ∈ ws, e = (w, w :: q) ∧ w ∉ acc.1 := by
  induction ws generalizing acc with
  | nil => exact Or.inl he
  | cons w ws ih =>
    simp only [List.foldl_cons] at he
    rcases ih _ he with h | h
    · by_cases hmem : w ∈ acc.1
      · simp only [visitStep, if_pos hmem] at h
        exact Or.inl h
      · simp only [visitStep, if_neg hmem] at h
        rcases List.mem_append.mp h with h2 | h2
        · exact Or.inl h2
        · simp at h2
          exact Or.inr ⟨w, by simp, h2, hmem⟩
    · obtain ⟨w2, hw2, he2, hnv⟩ := h
      by_cases hmem : w ∈ acc.1
      · simp only [visitStep, if_pos hmem] at hnv
        exact Or.inr ⟨w2, List.mem_cons_of_mem _ hw2, he2, hnv⟩
      · simp only [visitStep, if_neg hmem] at hnv
        have : w2 ∉ acc.1 := fun hc => hnv (List.mem_append_left _ hc)
        exact Or.inr ⟨w2, List.mem_cons_of_mem _ hw2, he2, this⟩

theorem visitStep_foldl_sub {q : List Nat} {v0 : List Nat} (ws : List Nat)
    (acc : List Nat × List (Nat × List Nat))
    (hinv : ∀ x ∈ acc.1, x ∈ v0 ∨ x ∈ acc.2.map Prod.fst) :
    ∀ x ∈ (ws.foldl (visitStep q) acc).1,
      x ∈ v0 ∨ x ∈ (ws.foldl (visitStep q) acc).2.map Prod.fst := by
  induction ws generalizing acc with
  | nil => exact hinv
  | cons w ws ih =>
    simp only [List.foldl_cons]
    apply ih
    intro x hx
    by_cases hmem : w ∈ acc.1
    · simp only [visitStep, if_pos hmem] at hx ⊢
      exact hinv x hx
    · simp only [visitStep, if_neg hmem] at hx ⊢
      rcases List.mem_append.mp hx with h2 | h2
      · rcases hinv x h2 with h3 | h3
        · exact Or.inl h3
        · refine Or.inr ?_
          rw [List.map_append]
          exact List.mem_append_left _ h3
      · simp at h2
        subst h2
        refine Or.inr ?_
        rw [List.map_append]
        exact List.mem_append_right _ (by simp)

theorem visitStep_foldl_nodup {q : List Nat} (ws : List Nat)
    (acc : List Nat × List (Nat × List Nat)) (hnd : acc.1.Nodup) :
    (ws.foldl (visitStep q) acc).1.Nodup := by
  induction ws generalizing acc with
  | nil => exact hnd
  | cons w ws ih =>
    simp only [List.foldl_cons]
    apply ih
    by_cases hmem : w ∈ acc.1
    · simpa [visitStep, hmem] using hnd
    · simp only [visitStep, if_neg hmem]
      simpa [List.nodup_append] using ⟨hnd, hmem⟩

theorem visitStep_foldl_len {q : List Nat} (ws : List Nat)
    (acc : List Nat × List (Nat × List Nat)) :
    (ws.foldl (visitStep q) acc).1.length + acc.2.length =
      (ws.foldl (visitStep q) acc).2.length + acc.1.length := by
  induction ws generalizing acc with
  | nil => simp only [List.foldl_nil]; omega
  | cons w ws ih =>
    simp only [List.foldl_cons]
    by_cases hmem : w ∈ acc.1
    · have hstep : visitStep q acc w = acc := by simp [visitStep, hmem]
      rw [hstep]
      exact ih acc
    · have hstep : visitStep q acc w = (acc.1 ++ [w], acc.2 ++ [(w, w :: q)]) := by
        simp [visitStep, hmem]
      rw [hstep]
      have h := ih (acc.1 ++ [w], acc.2 ++ [(w, w :: q)])
      simp only [List.length_append, List.length_cons, List.length_nil] at h
      omega

theorem expandFold_mem_vis {g : DiGraph} (f : List (Nat × List Nat))
    (acc : List Nat × List (Nat × List Nat)) {x : Nat} (hx : x ∈ acc.1) :
    x ∈ (f.foldl (expandNode g) acc).1 := by
  induction f generalizing acc with
  | nil => exact hx
  | cons np f ih =>
    simp only [List.foldl_cons]
    exact ih _ (visitStep_foldl_mem_vis _ _ hx)

theorem expandLevel_mem_vis {g : DiGraph} {visited : List Nat}
    {frontier : List (Nat × List Nat)} {x : Nat} (hx : x ∈ visited) :
    x ∈ (expandLevel g visited frontier).1 := by
  exact expandFold_mem_vis frontier (visited, []) hx

theorem expandLevel_cover {g : DiGraph} {visited : List Nat}
    {frontier : List (Nat × List Nat)} {np : Nat × List Nat} {w : Nat}
    (hnp : np ∈ frontier) (hw : w ∈ g.succs np.1) :
    w ∈ (expandLevel g visited frontier).1 := by
  unfold expandLevel
  have hgen : ∀ (f : List (Nat × List Nat)) (acc : List Nat × List (Nat × List Nat)),
      np ∈ f → w ∈ (f.foldl (expandNode g) acc).1 := by
    intro f
    induction f with
    | nil => intro acc h; simp at h
    | cons np2 f ih =>
      intro acc h
      simp only [List.foldl_cons]
      rcases List.mem_cons.mp h with h2 | h2
      · subst h2
        exact expandFold_mem_vis f _ (visitStep_foldl_cover _ _ hw)
      · exact ih _ h2
  exact hgen frontier (visited, []) hnp

theorem expandLevel_vis_src {g : DiGraph} {visited : List Nat}
    {frontier : List (Nat × List Nat)} {x : Nat}
    (hx : x ∈ (expandLevel g visited frontier).1) :
    x ∈ visited ∨ ∃ np ∈ frontier, x ∈ g.succs np.1 := by
  unfold expandLevel at hx
  have hgen : ∀ (f : List (Nat × List Nat)) (acc : List Nat × List (Nat × List Nat)),
      x ∈ (f.foldl (expandNode g) acc).1 → x ∈ acc.1 ∨ ∃ np ∈ f, x ∈ g.succs np.1 := by
    intro f
    induction f with
    | nil => exact fun acc h => Or.inl h
    | cons np2 f ih =>
      intro acc h
      simp only [List.foldl_cons] at h
      rcases ih _ h with h2 | h2
      · rcases visitStep_foldl_vis_src _ _ h2 with h3 | h3
        · exact Or.inl h3
        · exact Or.inr ⟨np2, by simp, h3⟩
      · obtain ⟨np3, hnp3, hx3⟩ := h2
        exact Or.inr ⟨np3, List.mem_cons_of_mem _ hnp3, hx3⟩
  rcases hgen frontier (visited, []) hx with h | h
  · exact Or.inl h
  · exact Or.inr h

theorem expandLevel_fr_src {g : DiGraph} {visited : List Nat}
    {frontier : List (Nat × List Nat)} {e : Nat × List Nat}
    (he : e ∈ (expandLevel g visited frontier).2) :
    ∃ np ∈ frontier, e.1 ∈ g.succs np.1 ∧ e = (e.1, e.1 :: np.2) ∧ e.1 ∉ visited := by
  unfold expandLevel at he
  have hgen : ∀ (f : List (Nat × List Nat)) (acc : List Nat × List (Nat × List Nat)),
      (∀ y ∈ acc.1, y = y) →
      e ∈ (f.foldl (expandNode g) acc).2 →
      e ∈ acc.2 ∨ ∃ np ∈ f, ∃ w, w ∈ g.succs np.1 ∧ e = (w, w :: np.2) ∧ w ∉ acc.1 := by
    intro f
    induction f with
    | nil => exact fun acc _ h => Or.inl h
    | cons np2 f ih =>
      intro acc _ h
      simp only [List.foldl_cons] at h
      rcases ih _ (fun y _ => rfl) h with h2 | h2
      · rcases visitStep_foldl_fr_src _ _ h2 with h3 | h3
        · exact Or.inl h3
        · obtain ⟨w, hw, hew, hnv⟩ := h3
          exact Or.inr ⟨np2, by simp, w, hw, hew, hnv⟩
      · obtain ⟨np3, hnp3, w, hw, hew, hnv⟩ := h2
        have hnv2 : w ∉ acc.1 := fun hc =>
          hnv (visitStep_foldl_mem_vis _ _ hc)
        exact Or.inr ⟨np3, List.mem_cons_of_mem _ hnp3, w, hw, hew, hnv2⟩
  rcases hgen frontier (visited, []) (fun y _ => rfl) he with h | h
  · simp at h
  · obtain ⟨np, hnp, w, hw, hew, hnv⟩ := h
    have : e.1 = w := by rw [hew]
    subst this
    exact ⟨np, hnp, hw, hew, hnv⟩

theorem expandLevel_sub {g : DiGraph} {visited : List Nat}
    {frontier : List (Nat × List Nat)} :
    ∀ x ∈ (expandLevel g visited frontier).1,
      x ∈ visited ∨ x ∈ (expandLevel g visited frontier).2.map Prod.fst := by
  unfold expandLevel
  have hgen : ∀ (f : List (Nat × List Nat)) (acc : List Nat × List (Nat × List Nat)),
      (∀ x ∈ acc.1, x ∈ visited ∨ x ∈ acc.2.map Prod.fst) →
      ∀ x ∈ (f.foldl (expandNode g) acc).1,
        x ∈ visited ∨ x ∈ (f.foldl (expandNode g) acc).2.map Prod.fst := by
    intro f
    induction f with
    | nil => exact fun acc h => h
    | cons np2 f ih =>
      intro acc hinv
      simp only [List.foldl_cons]
      exact ih _ (visitStep_foldl_sub _ _ hinv)
  exact hgen frontier (visited, []) (fun x hx => Or.inl hx)

theorem expandLevel_nodup {g : DiGraph} {visited : List Nat}
    {frontier : List (Nat × List Nat)} (hnd : visited.Nodup) :
    (expandLevel g visited frontier).1.Nodup := by
  unfold expandLevel
  have hgen : ∀ (f : List (Nat × List Nat)) (acc : List Nat × List (Nat × List Nat)),
      acc.1.Nodup → (f.foldl (expandNode g) acc).1.Nodup := by
    intro f
    induction f with
    | nil => exact fun acc h => h
    | cons np2 f ih =>
      intro acc hacc
      simp only [List.foldl_cons]
      exact ih _ (visitStep_foldl_nodup _ _ hacc)
  exact hgen frontier (visited, []) hnd

theorem expandLevel_len {g : DiGraph} {visited : List Nat}
    {frontier : List (Nat × List Nat)} :
    (expandLevel g visited frontier).1.length =
      visited.length + (expandLevel g visited frontier).2.length := by
  unfold expandLevel
  have hgen : ∀ (f : List (Nat × List Nat)) (acc : List Nat × List (Nat × List Nat)),
      (f.foldl (expandNode g) acc).1.length + acc.2.length =
        (f.foldl (expandNode g) acc).2.length + acc.1.length := by
    intro f
    induction f with
    | nil => intro acc; simp only [List.foldl_nil]; omega
    | cons np2 f ih =>
      intro acc
      simp only [List.foldl_cons]
      have h1 := ih (expandNode g acc np2)
      have h2 : (expandNode g acc np2).1.length + acc.2.length =
          (expandNode g acc np2).2.length + acc.1.length :=
        @visitStep_foldl_len np2.2 (g.succs np2.1) acc
      omega
  have := hgen frontier (visited, [])
  simp only [List.length_nil] at this
  omega


/-! ### The BFS level invariant and the main loop theorems -/

theorem succs_sub_targets {g : DiGraph} {u x w : Nat} (hw : w ∈ g.succs x) :
    w ∈ targetsFrom g u := by
  simp only [DiGraph.succs, List.mem_map, List.mem_filter] at hw
  obtain ⟨e, ⟨he, _⟩, h2⟩ := hw
  exact List.mem_cons_of_mem _ (List.mem_map.mpr ⟨e, he, h2⟩)

theorem bfsInv_init (g : DiGraph) (u : Nat) : BfsInv g u 0 [u] [(u, [u])] := by
  refine ⟨?_, ?_, ?_, ?_, ?_, ?_⟩
  · intro w
    constructor
    · intro hw
      have : w = u := by simpa using hw
      subst this
      exact ⟨0, Nat.le_refl 0, Reach.refl w⟩
    · rintro ⟨m, hm, hr⟩
      have : m = 0 := Nat.le_zero.mp hm
      subst this
      simp [hr.zero_eq]
  · intro e he
    have : e = (u, [u]) := by simpa using he
    subst this
    exact ⟨RPath.base, rfl⟩
  · rintro w ⟨m, hm, hr⟩
    have : m = 0 := Nat.le_zero.mp hm
    subst this
    exact Or.inr (by simp [hr.zero_eq])
  · exact List.nodup_singleton u
  · intro x hx
    have : x = u := by simpa using hx
    subst this
    exact List.mem_cons_self _ _
  · simp

/-- A frontier entry is the endpoint of a walk of exactly `k` edges. -/
theorem BfsInv.fr_reach {g : DiGraph} {u k : Nat} {visited : List Nat}
    {frontier : List (Nat × List Nat)} (inv : BfsInv g u k visited frontier)
    {e : Nat × List Nat} (he : e ∈ frontier) : Reach g u e.1 k := by
  obtain ⟨hp, hlen⟩ := inv.fr_path e he
  have := hp.reach
  rw [hlen] at this
  simpa using this

/-- The number of completed levels never exceeds the number of edges. -/
theorem BfsInv.level_le {g : DiGraph} {u k : Nat} {visited : List Nat}
    {frontier : List (Nat × List Nat)} (inv : BfsInv g u k visited frontier) :
    k ≤ g.edges.length := by
  have hsub : visited ⊆ targetsFrom g u := fun x hx => inv.vis_sub x hx
  have hlen : visited.length ≤ (targetsFrom g u).length :=
    (inv.vis_nodup.subperm hsub).length_le
  have : (targetsFrom g u).length = g.edges.length + 1 := by
    simp [targetsFrom]
  have hk := inv.vis_len
  omega

/-- A node whose minimum distance from the source is exactly `k + 1` is an
unvisited successor of some frontier entry. -/
theorem frontier_succ_of_min {g : DiGraph} {u k : Nat} {visited : List Nat}
    {frontier : List (Nat × List Nat)} (inv : BfsInv g u k visited frontier)
    {w : Nat} (hex : ∃ m ≤ k + 1, Reach g u w m)
    (hnot : ¬ ∃ m ≤ k, Reach g u w m) :
    ∃ np ∈ frontier, w ∈ g.succs np.1 := by
  obtain ⟨m, hm, hr⟩ := hex
  have hmk : m = k + 1 := by
    rcases Nat.lt_or_ge m (k + 1) with h | h
    · exact absurd ⟨m, Nat.lt_succ_iff.mp h, hr⟩ hnot
    · omega
  subst hmk
  obtain ⟨y, hy1, hy2⟩ := Reach.split k hr (by omega)
  have hyw : g.hasEdge y w = true := by
    have h1 : k + 1 - k = 1 := by omega
    rw [h1] at hy2
    cases hy2 with
    | step he htail =>
      have := htail.zero_eq
      subst this
      assumption
  have hymin : ¬ ∃ m2 < k, Reach g u y m2 := by
    rintro ⟨m2, hm2, hr2⟩
    exact hnot ⟨m2 + 1, by omega, Reach.snoc hr2 hyw⟩
  rcases inv.fr_cover y ⟨k, Nat.le_refl k, hy1⟩ with h | h
  · exact absurd h hymin
  · obtain ⟨np, hnp, hfst⟩ := List.mem_map.mp h
    exact ⟨np, hnp, hfst ▸ mem_succs_iff.mpr hyw⟩

/-- One BFS level preserves the invariant, provided the produced frontier is
nonempty. -/
theorem bfsInv_step {g : DiGraph} {u k : Nat} {visited : List Nat}
    {frontier : List (Nat × List Nat)} (inv : BfsInv g u k visited frontier)
    (hne : (expandLevel g visited frontier).2 ≠ []) :
    BfsInv g u (k + 1) (expandLevel g visited frontier).1
      (expandLevel g visited frontier).2 := by
  refine ⟨?_, ?_, ?_, expandLevel_nodup inv.vis_nodup, ?_, ?_⟩
  · intro w
    constructor
    · intro hw
      rcases expandLevel_vis_src hw with h | h
      · obtain ⟨m, hm, hr⟩ := (inv.vis_iff w).mp h
        exact ⟨m, by omega, hr⟩
      · obtain ⟨np, hnp, hw2⟩ := h
        have hr := inv.fr_reach hnp
        exact ⟨k + 1, Nat.le_refl _, Reach.snoc hr (mem_succs_iff.mp hw2)⟩
    · intro hex
      by_cases hk : ∃ m ≤ k, Reach g u w m
      · exact expandLevel_mem_vis ((inv.vis_iff w).mpr hk)
      · obtain ⟨np, hnp, hw2⟩ := frontier_succ_of_min inv hex hk
        exact expandLevel_cover hnp hw2
  · intro e he
    obtain ⟨np, hnp, hsucc, hew, _⟩ := expandLevel_fr_src he
    obtain ⟨hp, hlen⟩ := inv.fr_path np hnp
    constructor
    · rw [hew]
      exact RPath.snoc hp (mem_succs_iff.mp hsucc)
    · rw [hew]
      simp [hlen]
  · rintro w hex
    by_cases hk : ∃ m ≤ k, Reach g u w m
    · obtain ⟨m, hm, hr⟩ := hk
      exact Or.inl ⟨m, by omega, hr⟩
    · obtain ⟨np, hnp, hw2⟩ := frontier_succ_of_min inv hex hk
      have hv : w ∈ (expandLevel g visited frontier).1 := expandLevel_cover hnp hw2
      rcases expandLevel_sub w hv with h | h
      · exact absurd ((inv.vis_iff w).mp h) hk
      · exact Or.inr h
  · intro x hx
    rcases expandLevel_vis_src hx with h | h
    · exact inv.vis_sub x h
    · obtain ⟨np, _, hx2⟩ := h
      exact succs_sub_targets hx2
  · have h1 := @expandLevel_len g visited frontier
    have h2 : 1 ≤ (expandLevel g visited frontier).2.length :=
      List.length_pos.mpr hne
    have := inv.vis_len
    omega

/-- When the loop has not yet found the target and the target sits strictly
further than the current level, the next frontier cannot be empty. -/
theorem next_frontier_ne_nil {g : DiGraph} {u target k : Nat}
    {visited : List Nat} {frontier : List (Nat × List Nat)}
    (inv : BfsInv g u k visited frontier) {d : Nat}
    (hr : Reach g u target d) (hmin : ∀ m, Reach g u target m → d ≤ m)
    (hkd : k < d) : (expandLevel g visited frontier).2 ≠ [] := by
  obtain ⟨x, hx1, hx2⟩ := Reach.split (k + 1) hr (by omega)
  have hxnot : ¬ ∃ m ≤ k, Reach g u x m := by
    rintro ⟨m, hm, hr2⟩
    have hcomp := Reach.trans hr2 hx2
    have := hmin (m + (d - (k + 1))) hcomp
    omega
  obtain ⟨np, hnp, hw2⟩ :=
    frontier_succ_of_min inv ⟨k + 1, Nat.le_refl _, hx1⟩ hxnot
  have hv : x ∈ (expandLevel g visited frontier).1 := expandLevel_cover hnp hw2
  rcases expandLevel_sub x hv with h | h
  · exact absurd ((inv.vis_iff x).mp h) hxnot
  · intro hnil
    rw [hnil] at h
    simp at h

/-- Completeness of the BFS loop: while the invariant holds and the fuel
covers the remaining levels, a reachable target is returned together with a
valid walk whose edge count is the minimum hop count. -/
theorem bfsLoop_complete {g : DiGraph} {u target : Nat} :
    ∀ (fuel k : Nat) (visited : List Nat) (frontier : List (Nat × List Nat)),
    BfsInv g u k visited frontier →
    g.edges.length + 1 - k ≤ fuel →
    ∀ d, k ≤ d → Reach g u target d → (∀ m, Reach g u target m → d ≤ m) →
    ∃ ns, bfsLoop g target fuel visited frontier = some ns ∧
      ns.head? = some u ∧ ns.getLast? = some target ∧
      chainB g ns = true ∧ ns.length = d + 1 := by
  intro fuel
  induction fuel with
  | zero =>
    intro k visited frontier inv hfuel d _ _ _
    have := inv.level_le
    omega
  | succ fuel ih =>
    intro k visited frontier inv hfuel d hkd hr hmin
    rw [bfsLoop]
    cases hfind : frontier.find? (fun np => np.1 = target) with
    | some np =>
      have hmem : np ∈ frontier := List.mem_of_find?_eq_some hfind
      have hfst : np.1 = target := by
        have := List.find?_some hfind
        simpa using this
      obtain ⟨hp, hlen⟩ := inv.fr_path np hmem
      rw [hfst] at hp
      have hreach_k : Reach g u target k := by
        have := hp.reach
        rw [hlen] at this
        simpa using this
      have hdk : d = k := Nat.le_antisymm (hmin k hreach_k) hkd
      refine ⟨np.2.reverse, rfl, ?_, ?_, hp.chain, ?_⟩
      · rw [List.head?_reverse]
        exact hp.last
      · rw [List.getLast?_reverse]
        exact hp.head
      · rw [List.length_reverse, hlen, hdk]
    | none =>
      have hnotfr : target ∉ frontier.map Prod.fst := by
        intro hc
        obtain ⟨np, hnp, hfst⟩ := List.mem_map.mp hc
        have := List.find?_eq_none.mp hfind np hnp
        simp [hfst] at this
      have hkd2 : k < d := by
        rcases Nat.lt_or_ge k d with h | h
        · exact h
        · have hdk : d = k := by omega
          subst hdk
          rcases inv.fr_cover target ⟨d, Nat.le_refl d, hr⟩ with h2 | h2
          · obtain ⟨m, hm, hr2⟩ := h2
            have := hmin m hr2
            omega
          · exact absurd h2 hnotfr
      have hne := next_frontier_ne_nil inv hr hmin hkd2
      rw [if_neg hne]
      exact ih (k + 1) _ _ (bfsInv_step inv hne) (by omega) d (by omega) hr hmin

/-- Soundness of the BFS loop: while the invariant holds and no walk shorter
than the current level reaches the target, a returned node list is a valid
walk whose edge count is the minimum hop count. -/
theorem bfsLoop_sound {g : DiGraph} {u target : Nat} :
    ∀ (fuel k : Nat) (visited : List Nat) (frontier : List (Nat × List Nat))
      (ns : List Nat),
    BfsInv g u k visited frontier →
    (∀ m, Reach g u target m → k ≤ m) →
    bfsLoop g target fuel visited frontier = some ns →
    ∃ j, Reach g u target j ∧ (∀ m, Reach g u target m → j ≤ m) ∧
      ns.head? = some u ∧ ns.getLast? = some target ∧
      chainB g ns = true ∧ ns.length = j + 1 := by
  intro fuel
  induction fuel with
  | zero =>
    intro k visited frontier ns _ _ hsome
    simp [bfsLoop] at hsome
  | succ fuel ih =>
    intro k visited frontier ns inv hmiss hsome
    rw [bfsLoop] at hsome
    cases hfind : frontier.find? (fun np => np.1 = target) with
    | some np =>
      rw [hfind] at hsome
      have hmem : np ∈ frontier := List.mem_of_find?_eq_some hfind
      have hfst : np.1 = target := by
        have := List.find?_some hfind
        simpa using this
      obtain ⟨hp, hlen⟩ := inv.fr_path np hmem
      rw [hfst] at hp
      have hreach_k : Reach g u target k := by
        have := hp.reach
        rw [hlen] at this
        simpa using this
      have hns : ns = np.2.reverse := by
        simpa using hsome.symm
      subst hns
      refine ⟨k, hreach_k, hmiss, ?_, ?_, hp.chain, ?_⟩
      · rw [List.head?_reverse]
        exact hp.last
      · rw [List.getLast?_reverse]
        exact hp.head
      · rw [List.length_reverse, hlen]
    | none =>
      rw [hfind] at hsome
      have hnotfr : target ∉ frontier.map Prod.fst := by
        intro hc
        obtain ⟨np, hnp, hfst⟩ := List.mem_map.mp hc
        have := List.find?_eq_none.mp hfind np hnp
        simp [hfst] at this
      by_cases hne : (expandLevel g visited frontier).2 = []
      · rw [if_pos hne] at hsome
        exact absurd hsome (by simp)
      · rw [if_neg hne] at hsome
        have hmiss2 : ∀ m, Reach g u target m → k + 1 ≤ m := by
          intro m hrm
          have h1 := hmiss m hrm
          rcases Nat.lt_or_ge m (k + 1) with h | h
          · have hmk : m = k := by omega
            subst hmk
            rcases inv.fr_cover target ⟨m, Nat.le_refl m, hrm⟩ with h2 | h2
            · obtain ⟨m2, hm2, hr2⟩ := h2
              have := hmiss m2 hr2
              omega
            · exact absurd h2 hnotfr
          · exact h
        exact ih (k + 1) _ _ ns (bfsInv_step inv hne) hmiss2 hsome


/-! ### Wrapper properties of the shortest-path search -/

theorem reach_min {g : DiGraph} {u v : Nat} (h : ∃ n, Reach g u v n) :
    ∃ d, Reach g u v d ∧ ∀ m, Reach g u v m → d ≤ m := by
  classical
  exact ⟨Nat.find h, Nat.find_spec h, fun m hm => Nat.find_min' h hm⟩

/-- The search succeeds on a reachable target and returns a shortest walk. -/
theorem shortest_path_of_reach {g : DiGraph} {u v d : Nat}
    (hr : Reach g u v d) (hmin : ∀ m, Reach g u v m → d ≤ m) :
    ∃ ns, shortest_path g u v = some ns ∧ ns.head? = some u ∧
      ns.getLast? = some v ∧ chainB g ns = true ∧ ns.length = d + 1 :=
  bfsLoop_complete (g.edges.length + 1) 0 [u] [(u, [u])] (bfsInv_init g u)
    (by omega) d (Nat.zero_le d) hr hmin

/-- Whatever the search returns is a shortest walk from `u` to `v`. -/
theorem shortest_path_sound {g : DiGraph} {u v : Nat} {ns : List Nat}
    (h : shortest_path g u v = some ns) :
    ∃ j, Reach g u v j ∧ (∀ m, Reach g u v m → j ≤ m) ∧ ns.head? = some u ∧
      ns.getLast? = some v ∧ chainB g ns = true ∧ ns.length = j + 1 :=
  bfsLoop_sound (g.edges.length + 1) 0 [u] [(u, [u])] ns (bfsInv_init g u)
    (fun m _ => Nat.zero_le m) h

theorem shortest_path_isSome_iff {g : DiGraph} {u v : Nat} :
    (shortest_path g u v).isSome = true ↔ ∃ n, Reach g u v n := by
  constructor
  · intro h
    obtain ⟨ns, hns⟩ := Option.isSome_iff_exists.mp h
    obtain ⟨j, hj, _⟩ := shortest_path_sound hns
    exact ⟨j, hj⟩
  · intro h
    obtain ⟨d, hd, hmin⟩ := reach_min h
    obtain ⟨ns, hns, _⟩ := shortest_path_of_reach hd hmin
    simp [hns]

theorem shortest_path_eq_none_iff {g : DiGraph} {u v : Nat} :
    shortest_path g u v = none ↔ ¬ ∃ n, Reach g u v n := by
  rw [← shortest_path_isSome_iff]
  cases shortest_path g u v <;> simp

/-! ### The search only reads the graph structure, never edge attributes -/

theorem succs_structural {g g2 : DiGraph}
    (h : g.edges.map Prod.fst = g2.edges.map Prod.fst) :
    ∀ x, g.succs x = g2.succs x := by
  have key : ∀ (l : List ((Nat × Nat) × EdgeData)) (x : Nat),
      (l.filter (fun e => e.1.1 = x)).map (fun e => e.1.2) =
        ((l.map Prod.fst).filter (fun k => k.1 = x)).map Prod.snd := by
    intro l x
    induction l with
    | nil => rfl
    | cons e l ih =>
      by_cases hx : e.1.1 = x
      · simp [List.filter_cons, hx, ih]
      · simp [List.filter_cons, hx, ih]
  intro x
  unfold DiGraph.succs
  rw [key, key, h]

theorem edges_length_structural {g g2 : DiGraph}
    (h : g.edges.map Prod.fst = g2.edges.map Prod.fst) :
    g.edges.length = g2.edges.length := by
  have := congrArg List.length h
  simpa using this

theorem expandLevel_structural {g g2 : DiGraph}
    (h : g.edges.map Prod.fst = g2.edges.map Prod.fst)
    (visited : List Nat) (frontier : List (Nat × List Nat)) :
    expandLevel g visited frontier = expandLevel g2 visited frontier := by
  unfold expandLevel
  have hfn : expandNode g = expandNode g2 := by
    funext acc np
    unfold expandNode
    rw [succs_structural h]
  rw [hfn]

theorem bfsLoop_structural {g g2 : DiGraph} {target : Nat}
    (h : g.edges.map Prod.fst = g2.edges.map Prod.fst) :
    ∀ (fuel : Nat) (visited : List Nat) (frontier : List (Nat × List Nat)),
    bfsLoop g target fuel visited frontier = bfsLoop g2 target fuel visited frontier := by
  intro fuel
  induction fuel with
  | zero => intro visited frontier; rfl
  | succ fuel ih =>
    intro visited frontier
    rw [bfsLoop, bfsLoop]
    cases frontier.find? (fun np => np.1 = target) with
    | some np => rfl
    | none =>
      simp only
      rw [expandLevel_structural h]
      by_cases hne : (expandLevel g2 visited frontier).2 = []
      · rw [if_pos hne, if_pos hne]
      · rw [if_neg hne, if_neg hne]
        exact ih _ _

theorem shortest_path_structural {g g2 : DiGraph} {u v : Nat}
    (h : g.edges.map Prod.fst = g2.edges.map Prod.fst) :
    shortest_path g u v = shortest_path g2 u v := by
  unfold shortest_path
  rw [edges_length_structural h]
  exact bfsLoop_structural h _ _ _

/-! ### Dictionary lemmas -/

theorem dictGet_dictSet_self {α : Type} (l : List (Nat × α)) (k : Nat) (v : α) :
    dictGet (dictSet l k v) k = some v := by
  unfold dictSet
  by_cases hany : l.any (fun e => e.1 = k)
  · rw [if_pos hany]
    unfold dictGet
    induction l with
    | nil => simp at hany
    | cons e l ih =>
      by_cases hek : e.1 = k
      · simp [List.find?_cons, hek]
      · have hany2 : l.any (fun e => e.1 = k) = true := by
          rcases List.any_eq_true.mp hany with ⟨e2, he2, hp⟩
          rcases List.mem_cons.mp he2 with h | h
          · exact absurd (by simpa using hp) (h ▸ hek)
          · exact List.any_eq_true.mpr ⟨e2, h, hp⟩
        simpa [List.find?_cons, hek] using ih hany2
  · rw [if_neg hany]
    unfold dictGet
    have hnone : l.find? (fun e => e.1 = k) = none := by
      rw [List.find?_eq_none]
      intro e he
      simp only [Bool.not_eq_true, decide_eq_false_iff_not]
      intro hc
      exact hany (List.any_eq_true.mpr ⟨e, he, by simpa using hc⟩)
    rw [List.find?_append, hnone]
    simp

theorem find?_map_repl {κ α : Type} [DecidableEq κ] (l : List (κ × α)) (k k2 : κ) (v : α)
    (h : k2 ≠ k) :
    (l.map (fun e => if e.1 = k then (k, v) else e)).find? (fun e => e.1 = k2) =
      l.find? (fun e => e.1 = k2) := by
  induction l with
  | nil => rfl
  | cons e l ih =>
    by_cases hek : e.1 = k
    · have h1 : ((k, v) : κ × α).1 ≠ k2 := fun hc => h hc.symm
      have h2 : e.1 ≠ k2 := fun hc => h (hek ▸ hc.symm)
      simp only [List.map_cons, hek, if_pos rfl]
      rw [List.find?_cons_of_neg, List.find?_cons_of_neg]
      · exact ih
      · simp [h2]
      · simp [h1]
    · simp only [List.map_cons, if_neg hek]
      by_cases he2 : e.1 = k2
      · rw [List.find?_cons_of_pos, List.find?_cons_of_pos] <;> simpa using he2
      · rw [List.find?_cons_of_neg, List.find?_cons_of_neg]
        · exact ih
        · simpa using he2
        · simpa using he2

theorem dictGet_dictSet_ne {α : Type} (l : List (Nat × α)) (k k2 : Nat) (v : α)
    (h : k2 ≠ k) : dictGet (dictSet l k v) k2 = dictGet l k2 := by
  unfold dictSet
  by_cases hany : l.any (fun e => e.1 = k)
  · rw [if_pos hany]
    unfold dictGet
    rw [find?_map_repl l k k2 v h]
  · rw [if_neg hany]
    unfold dictGet
    rw [List.find?_append]
    have : List.find? (fun e => e.1 = k2) [(k, v)] = none := by
      simp [List.find?_cons, Ne.symm h]
    rw [this]
    simp

theorem dictGet_dictUpdate_not_mem {α : Type} (l m : List (Nat × α)) (k : Nat)
    (h : ∀ e ∈ m, e.1 ≠ k) : dictGet (dictUpdate l m) k = dictGet l k := by
  unfold dictUpdate
  induction m generalizing l with
  | nil => rfl
  | cons e m ih =>
    simp only [List.foldl_cons]
    rw [ih _ (fun e2 he2 => h e2 (List.mem_cons_of_mem _ he2))]
    exact dictGet_dictSet_ne _ _ _ _ (Ne.symm (h e (List.mem_cons_self _ _)))

theorem dictSet_keys {α : Type} (l : List (Nat × α)) (k : Nat) (v : α) :
    ∀ e ∈ dictSet l k v, e.1 = k ∨ e.1 ∈ l.map Prod.fst := by
  intro e he
  unfold dictSet at he
  split at he
  · obtain ⟨e2, he2, heq⟩ := List.mem_map.mp he
    by_cases hek : e2.1 = (k : Nat)
    · rw [if_pos hek] at heq
      exact Or.inl (by rw [← heq])
    · rw [if_neg hek] at heq
      exact Or.inr (heq ▸ List.mem_map_of_mem _ he2)
  · rcases List.mem_append.mp he with h2 | h2
    · exact Or.inr (List.mem_map_of_mem _ h2)
    · have : e = (k, v) := by simpa using h2
      exact Or.inl (by rw [this])

theorem foldl_dictSet_keys {α β : Type} (f : β → Nat) (g0 : β → α) (l : List β) :
    ∀ (acc : List (Nat × α)) (e : Nat × α),
      e ∈ l.foldl (fun vm b => dictSet vm (f b) (g0 b)) acc →
      e.1 ∈ acc.map Prod.fst ∨ e.1 ∈ l.map f := by
  induction l with
  | nil => exact fun acc e he => Or.inl (List.mem_map_of_mem _ he)
  | cons b l ih =>
    intro acc e he
    simp only [List.foldl_cons] at he
    rcases ih _ e he with h | h
    · obtain ⟨e2, he2, heq⟩ := List.mem_map.mp h
      rcases dictSet_keys acc (f b) (g0 b) e2 he2 with h2 | h2
      · exact Or.inr (by simp [← heq, h2])
      · exact Or.inl (heq ▸ h2)
    · exact Or.inr (List.mem_cons_of_mem _ h)

/-! ### Graph construction lemmas -/

theorem addNode_edges (g : DiGraph) (v : Nat) : (g.addNode v).edges = g.edges := by
  unfold DiGraph.addNode
  split <;> rfl

theorem hasEdge_addNode (g : DiGraph) (v u w : Nat) :
    (g.addNode v).hasEdge u w = g.hasEdge u w := by
  unfold DiGraph.hasEdge
  rw [addNode_edges]

theorem addEdge_edges (g : DiGraph) (u v : Nat) (d : EdgeData) :
    (g.addEdge u v d).edges =
      if g.hasEdge u v then
        g.edges.map (fun e => if e.1 = (u, v) then ((u, v), d) else e)
      else g.edges ++ [((u, v), d)] := by
  have hh : ((g.addNode u).addNode v).hasEdge u v = g.hasEdge u v := by
    rw [hasEdge_addNode, hasEdge_addNode]
  have he : ((g.addNode u).addNode v).edges = g.edges := by
    rw [addNode_edges, addNode_edges]
  by_cases h : g.hasEdge u v = true
  · simp [DiGraph.addEdge, hh, he, h]
  · simp [DiGraph.addEdge, hh, he, h]

theorem find?_map_repl_self {κ α : Type} [DecidableEq κ] (l : List (κ × α))
    (k : κ) (v : α) (hany : l.any (fun e => e.1 = k) = true) :
    (l.map (fun e => if e.1 = k then (k, v) else e)).find? (fun e => e.1 = k) =
      some (k, v) := by
  induction l with
  | nil => simp at hany
  | cons e l ih =>
    by_cases hek : e.1 = k
    · simp [List.find?_cons, hek]
    · have hany2 : l.any (fun e => e.1 = k) = true := by
        rcases List.any_eq_true.mp hany with ⟨e2, he2, hp⟩
        rcases List.mem_cons.mp he2 with h | h
        · exact absurd (by simpa using hp) (h ▸ hek)
        · exact List.any_eq_true.mpr ⟨e2, h, hp⟩
      simpa [List.find?_cons, hek] using ih hany2

theorem keys_map_repl {κ α : Type} [DecidableEq κ] (l : List (κ × α)) (k : κ) (v : α) :
    (l.map (fun e => if e.1 = k then (k, v) else e)).map Prod.fst = l.map Prod.fst := by
  rw [List.map_map]
  apply List.map_congr_left
  intro e _
  by_cases hek : e.1 = k
  · simp [hek]
  · simp [hek]

theorem hasEdge_iff_mem_keys {g : DiGraph} {u v : Nat} :
    g.hasEdge u v = true ↔ (u, v) ∈ g.edges.map Prod.fst := by
  unfold DiGraph.hasEdge
  rw [List.any_eq_true]
  constructor
  · rintro ⟨e, he, hp⟩
    exact List.mem_map.mpr ⟨e, he, by simpa using hp⟩
  · intro h
    obtain ⟨e, he, hp⟩ := List.mem_map.mp h
    exact ⟨e, he, by simpa using hp⟩

theorem hasEdge_of_getEdgeData {g : DiGraph} {u v : Nat} {d : EdgeData}
    (h : g.getEdgeData u v = some d) : g.hasEdge u v = true := by
  unfold DiGraph.getEdgeData at h
  unfold DiGraph.hasEdge
  cases hf : g.edges.find? (fun e => e.1 = (u, v)) with
  | none => rw [hf] at h; simp at h
  | some e =>
    rw [List.any_eq_true]
    have hp := List.find?_some hf
    exact ⟨e, List.mem_of_find?_eq_some hf, hp⟩

theorem getEdgeData_addEdge_self (g : DiGraph) (u v : Nat) (d : EdgeData) :
    (g.addEdge u v d).getEdgeData u v = some d := by
  unfold DiGraph.getEdgeData
  rw [addEdge_edges]
  by_cases h : g.hasEdge u v = true
  · rw [if_pos h]
    have hany : g.edges.any (fun e => e.1 = (u, v)) = true := h
    rw [find?_map_repl_self g.edges (u, v) d hany]
    rfl
  · rw [if_neg h]
    have hnone : g.edges.find? (fun e => e.1 = (u, v)) = none := by
      rw [List.find?_eq_none]
      intro e he
      simp only [Bool.not_eq_true, decide_eq_false_iff_not]
      intro hc
      exact h (List.any_eq_true.mpr ⟨e, he, by simpa using hc⟩)
    rw [List.find?_append, hnone]
    simp

theorem getEdgeData_addEdge_ne (g : DiGraph) (u v : Nat) (d : EdgeData) (a b : Nat)
    (h : (a, b) ≠ (u, v)) :
    (g.addEdge u v d).getEdgeData a b = g.getEdgeData a b := by
  unfold DiGraph.getEdgeData
  rw [addEdge_edges]
  by_cases hc : g.hasEdge u v = true
  · rw [if_pos hc, find?_map_repl g.edges (u, v) (a, b) d h]
  · rw [if_neg hc, List.find?_append]
    have : List.find? (fun e => e.1 = (a, b)) [((u, v), d)] = none := by
      simp [List.find?_cons, Ne.symm h]
    rw [this]
    simp

theorem hasEdge_addEdge_iff (g : DiGraph) (u v : Nat) (d : EdgeData) (a b : Nat) :
    (g.addEdge u v d).hasEdge a b = true ↔
      (g.hasEdge a b = true ∨ (a, b) = (u, v)) := by
  rw [hasEdge_iff_mem_keys, hasEdge_iff_mem_keys, addEdge_edges]
  by_cases hc : g.hasEdge u v = true
  · rw [if_pos hc, keys_map_repl]
    constructor
    · exact Or.inl
    · rintro (h | h)
      · exact h
      · rw [h]
        exact hasEdge_iff_mem_keys.mp hc
  · rw [if_neg hc, List.map_append]
    simp only [List.mem_append]
    constructor
    · rintro (h | h)
      · exact Or.inl h
      · exact Or.inr (by simpa using h)
    · rintro (h | h)
      · exact Or.inl h
      · exact Or.inr (by simpa using h)

theorem addEdge_keys_nodup (g : DiGraph) (u v : Nat) (d : EdgeData)
    (hnd : (g.edges.map Prod.fst).Nodup) :
    ((g.addEdge u v d).edges.map Prod.fst).Nodup := by
  rw [addEdge_edges]
  by_cases hc : g.hasEdge u v = true
  · rw [if_pos hc, keys_map_repl]
    exact hnd
  · rw [if_neg hc, List.map_append]
    have hnot : (u, v) ∉ g.edges.map Prod.fst := fun h2 => hc (hasEdge_iff_mem_keys.mpr h2)
    refine List.nodup_append.mpr ⟨hnd, List.nodup_singleton _, ?_⟩
    intro a ha hb
    have hab : a = (u, v) := by simpa using hb
    exact hnot (hab ▸ ha)

theorem filter_key_length_eq_one {κ α : Type} [DecidableEq κ] (l : List (κ × α)) (k : κ)
    (hnd : (l.map Prod.fst).Nodup) (hmem : k ∈ l.map Prod.fst) :
    (l.filter (fun e => e.1 = k)).length = 1 := by
  induction l with
  | nil => simp at hmem
  | cons e l ih =>
    simp only [List.map_cons, List.nodup_cons] at hnd
    by_cases hek : e.1 = k
    · have hknotin : ∀ e2 ∈ l, ¬ (e2.1 = k) := by
        intro e2 he2 hc
        exact hnd.1 (hek ▸ hc ▸ List.mem_map_of_mem Prod.fst he2)
      have hfil : l.filter (fun e => e.1 = k) = [] := by
        rw [List.filter_eq_nil_iff]
        intro e2 he2
        simpa using hknotin e2 he2
      simp [List.filter_cons, hek, hfil]
    · have hmem2 : k ∈ l.map Prod.fst := by
        rcases List.mem_cons.mp hmem with h | h
        · exact absurd h.symm hek
        · exact h
      simpa [List.filter_cons, hek] using ih hnd.2 hmem2

/-! ### Lemmas about the three build folds -/

theorem nodesFold_edges (versions : List VersionRow) (g : DiGraph) :
    (versions.foldl (fun g v => g.addNode v.id) g).edges = g.edges := by
  induction versions generalizing g with
  | nil => rfl
  | cons v vs ih =>
    simp only [List.foldl_cons]
    rw [ih, addNode_edges]

theorem pathsFold_getEdgeData_of_not_mem (paths : List UpgradePathRow) (g : DiGraph)
    (f t : Nat) (h : ∀ p ∈ paths, ¬ (p.from_version_id = f ∧ p.to_version_id = t)) :
    (paths.foldl
      (fun g p => g.addEdge p.from_version_id p.to_version_id (pathEdgeData p))
      g).getEdgeData f t = g.getEdgeData f t := by
  induction paths generalizing g with
  | nil => rfl
  | cons p ps ih =>
    simp only [List.foldl_cons]
    rw [ih _ (fun p2 hp2 => h p2 (List.mem_cons_of_mem _ hp2))]
    apply getEdgeData_addEdge_ne
    intro hc
    exact h p (List.mem_cons_self _ _)
      ⟨(Prod.mk.injEq _ _ _ _ ▸ hc).1.symm ▸ rfl, by
        have := (Prod.mk.injEq _ _ _ _).mp hc
        exact this.2.symm ▸ rfl⟩

theorem pathsFold_getEdgeData_of_mem (paths : List UpgradePathRow) (g : DiGraph)
    (f t : Nat) (h : ∃ p ∈ paths, p.from_version_id = f ∧ p.to_version_id = t) :
    ∃ p ∈ paths, p.from_version_id = f ∧ p.to_version_id = t ∧
      (paths.foldl
        (fun g p => g.addEdge p.from_version_id p.to_version_id (pathEdgeData p))
        g).getEdgeData f t = some (pathEdgeData p) := by
  induction paths generalizing g with
  | nil => simp at h
  | cons p ps ih =>
    simp only [List.foldl_cons]
    by_cases hex : ∃ p2 ∈ ps, p2.from_version_id = f ∧ p2.to_version_id = t
    · obtain ⟨p2, hp2, hf, ht, hdata⟩ := ih _ hex
      exact ⟨p2, List.mem_cons_of_mem _ hp2, hf, ht, hdata⟩
    · have hmatch : p.from_version_id = f ∧ p.to_version_id = t := by
        obtain ⟨p2, hp2, hft⟩ := h
        rcases List.mem_cons.mp hp2 with h2 | h2
        · exact h2 ▸ hft
        · exact absurd ⟨p2, h2, hft⟩ hex
      refine ⟨p, List.mem_cons_self _ _, hmatch.1, hmatch.2, ?_⟩
      have hnone : ∀ p2 ∈ ps, ¬ (p2.from_version_id = f ∧ p2.to_version_id = t) :=
        fun p2 hp2 hft => hex ⟨p2, hp2, hft⟩
      rw [pathsFold_getEdgeData_of_not_mem ps _ f t hnone]
      rw [← hmatch.1, ← hmatch.2]
      exact getEdgeData_addEdge_self g _ _ _

theorem pathsFold_keys_nodup (paths : List UpgradePathRow) (g : DiGraph)
    (hnd : (g.edges.map Prod.fst).Nodup) :
    ((paths.foldl
      (fun g p => g.addEdge p.from_version_id p.to_version_id (pathEdgeData p))
      g).edges.map Prod.fst).Nodup := by
  induction paths generalizing g with
  | nil => exact hnd
  | cons p ps ih =>
    simp only [List.foldl_cons]
    exact ih _ (addEdge_keys_nodup _ _ _ _ hnd)

theorem compatFold_preserve (compats : List CompatRow) (g : DiGraph) (f t : Nat)
    (h : g.hasEdge f t = true) :
    (compats.foldl
      (fun g c => if g.hasEdge c.from_version_id c.to_version_id then g
        else g.addEdge c.from_version_id c.to_version_id (compatEdgeData c))
      g).hasEdge f t = true ∧
    (compats.foldl
      (fun g c => if g.hasEdge c.from_version_id c.to_version_id then g
        else g.addEdge c.from_version_id c.to_version_id (compatEdgeData c))
      g).getEdgeData f t = g.getEdgeData f t ∧
    ((compats.foldl
      (fun g c => if g.hasEdge c.from_version_id c.to_version_id then g
        else g.addEdge c.from_version_id c.to_version_id (compatEdgeData c))
      g).edges.filter (fun e => e.1 = (f, t))).length =
      (g.edges.filter (fun e => e.1 = (f, t))).length := by
  induction compats generalizing g with
  | nil => exact ⟨h, rfl, rfl⟩
  | cons c cs ih =>
    simp only [List.foldl_cons]
    by_cases hc : g.hasEdge c.from_version_id c.to_version_id = true
    · rw [if_pos hc]
      exact ih g h
    · rw [if_neg hc]
      have hkey : ((f, t) : Nat × Nat) ≠ (c.from_version_id, c.to_version_id) := by
        intro hk
        have h1 := (Prod.mk.injEq _ _ _ _).mp hk
        rw [← h1.1, ← h1.2] at hc
        exact hc h
      have h2 : (g.addEdge c.from_version_id c.to_version_id
          (compatEdgeData c)).hasEdge f t = true :=
        (hasEdge_addEdge_iff _ _ _ _ _ _).mpr (Or.inl h)
      obtain ⟨ha, hb, hlen⟩ := ih _ h2
      refine ⟨ha, ?_, ?_⟩
      · rw [hb]
        exact getEdgeData_addEdge_ne _ _ _ _ _ _ hkey
      · rw [hlen, addEdge_edges, if_neg hc, List.filter_append]
        have : List.filter (fun e => e.1 = (f, t))
            [((c.from_version_id, c.to_version_id), compatEdgeData c)] = [] := by
          simp [List.filter_cons, Ne.symm hkey]
        rw [this, List.append_nil]

theorem compatFold_keys_nodup (compats : List CompatRow) (g : DiGraph)
    (hnd : (g.edges.map Prod.fst).Nodup) :
    ((compats.foldl
      (fun g c => if g.hasEdge c.from_version_id c.to_version_id then g
        else g.addEdge c.from_version_id c.to_version_id (compatEdgeData c))
      g).edges.map Prod.fst).Nodup := by
  induction compats generalizing g with
  | nil => exact hnd
  | cons c cs ih =>
    simp only [List.foldl_cons]
    by_cases hc : g.hasEdge c.from_version_id c.to_version_id = true
    · rw [if_pos hc]
      exact ih _ hnd
    · rw [if_neg hc]
      exact ih _ (addEdge_keys_nodup _ _ _ _ hnd)

/-- The core precedence property of `buildGraph`: a pair covered by an
upgrade-path record ends up with exactly one edge, carrying the attributes of
an upgrade-path record. -/
theorem buildGraph_precedence_core (versions : List VersionRow)
    (paths : List UpgradePathRow) (compats : List CompatRow) (f t : Nat)
    (hp : ∃ p ∈ paths, p.from_version_id = f ∧ p.to_version_id = t) :
    ((buildGraph versions paths compats).edges.filter
      (fun e => e.1 = (f, t))).length = 1 ∧
    ∃ p ∈ paths, p.from_version_id = f ∧ p.to_version_id = t ∧
      (buildGraph versions paths compats).getEdgeData f t = some (pathEdgeData p) := by
  unfold buildGraph
  have hnd0 : (((versions.foldl (fun g v => g.addNode v.id)
      DiGraph.empty).edges).map Prod.fst).Nodup := by
    rw [nodesFold_edges]
    exact List.nodup_nil
  obtain ⟨p, hpmem, hpf, hpt, hpdata⟩ :=
    pathsFold_getEdgeData_of_mem paths
      (versions.foldl (fun g v => g.addNode v.id) DiGraph.empty) f t hp
  have hhas : (paths.foldl
      (fun g p => g.addEdge p.from_version_id p.to_version_id (pathEdgeData p))
      (versions.foldl (fun g v => g.addNode v.id) DiGraph.empty)).hasEdge f t = true :=
    hasEdge_of_getEdgeData hpdata
  obtain ⟨hce1, hce2, hce3⟩ := compatFold_preserve compats _ f t hhas
  have hnd1 := pathsFold_keys_nodup paths _ hnd0
  have hnd2 := compatFold_keys_nodup compats _ hnd1
  constructor
  · rw [hce3]
    apply filter_key_length_eq_one _ _ hnd1
    exact hasEdge_iff_mem_keys.mp hhas
  · exact ⟨p, hpmem, hpf, hpt, by rw [hce2, hpdata]⟩

/-! ### Lemmas about intermediate expansion and downtime aggregation -/

theorem chain_fold (mi : List Nat) (b : Nat) :
    ∀ (cur : Nat) (acc : List (Nat × Nat)),
    (mi.foldl (fun (acc2 : List (Nat × Nat) × Nat) i => (acc2.1 ++ [(acc2.2, i)], i))
        (acc, cur)).1 ++
      [((mi.foldl (fun (acc2 : List (Nat × Nat) × Nat) i => (acc2.1 ++ [(acc2.2, i)], i))
        (acc, cur)).2, b)] = acc ++ (cur :: mi).zip (mi ++ [b]) := by
  induction mi with
  | nil =>
    intro cur acc
    simp
  | cons i mi ih =>
    intro cur acc
    simp only [List.foldl_cons]
    have := ih i (acc ++ [(cur, i)])
    simp only [List.cons_append, List.zip_cons_cons] at this ⊢
    rw [this, List.append_assoc]
    rfl

/-- The expansion loop, characterized edge by edge. -/
theorem expand_foldl_spec (g : DiGraph) (l : List (Nat × Nat)) :
    ∀ acc : List (Nat × Nat),
    l.foldl
      (fun expanded e =>
        match g.getEdgeData e.1 e.2 with
        | none => expanded ++ [e]
        | some d =>
          if d.mandatory_intermediates = [] then expanded ++ [e]
          else
            let r := d.mandatory_intermediates.foldl
              (fun (acc : List (Nat × Nat) × Nat) i => (acc.1 ++ [(acc.2, i)], i))
              (expanded, e.1)
            r.1 ++ [(r.2, e.2)]) acc =
    acc ++ l.flatMap (fun e =>
      match g.getEdgeData e.1 e.2 with
      | none => [e]
      | some d =>
        if d.mandatory_intermediates = [] then [e]
        else (e.1 :: d.mandatory_intermediates).zip
          (d.mandatory_intermediates ++ [e.2])) := by
  induction l with
  | nil =>
    intro acc
    simp
  | cons e l ih =>
    intro acc
    simp only [List.foldl_cons, List.flatMap_cons]
    cases hd : g.getEdgeData e.1 e.2 with
    | none =>
      rw [ih (acc ++ [e]), List.append_assoc]
    | some d =>
      dsimp only
      by_cases hmi : d.mandatory_intermediates = []
      · rw [if_pos hmi, if_pos hmi, ih (acc ++ [e]), List.append_assoc]
      · rw [if_neg hmi, if_neg hmi]
        rw [ih, chain_fold, List.append_assoc]

/-- The downtime accumulation loop, characterized in one pass. -/
theorem downtime_foldl_spec (steps : List Step) :
    ∀ acc : Int × Bool,
    steps.foldl
      (fun (acc : Int × Bool) st =>
        match st.estimated_downtime_minutes with
        | none => acc
        | some d => (acc.1 + d, true)) acc =
    (acc.1 + (steps.filterMap (fun st => st.estimated_downtime_minutes)).sum,
      acc.2 || steps.any (fun st => st.estimated_downtime_minutes.isSome)) := by
  induction steps with
  | nil =>
    intro acc
    simp
  | cons st steps ih =>
    intro acc
    simp only [List.foldl_cons, List.any_cons]
    cases hd : st.estimated_downtime_minutes with
    | none =>
      rw [ih]
      simp [List.filterMap_cons, hd]
    | some d =>
      rw [ih]
      simp [List.filterMap_cons, hd, Int.add_assoc]

theorem zip_tail_length (ns : List Nat) :
    (ns.zip ns.tail).length = ns.length - 1 := by
  rw [List.length_zip, List.length_tail]
  omega

theorem has_path_iff {g : DiGraph} {u v : Nat} :
    has_path g u v = true ↔ ∃ n, Reach g u v n := by
  unfold has_path
  exact shortest_path_isSome_iff

/-! ### Claim theorems -/

/-- C4 (counterexample): in spec scenario 2 (LOW edges 1→2 and 2→3, HIGH
edge 1→3 with mandatory intermediate 2), `compute_upgrade_path(model, 1, 3)`
returns `overallRisk = "LOW"`, not `"HIGH"` as the claim states: the risk is
recomputed from each expanded hop's own edge metadata, so the original HIGH
edge's risk is lost. -/
theorem compute_scenario2_risk_is_low_not_high :
    ((compute_upgrade_path scenario2DB 1 1 3 EngineState.init).2.map
      (fun r => r.overall_risk)) = some "LOW" ∧
    ((compute_upgrade_path scenario2DB 1 1 3 EngineState.init).2.map
      (fun r => r.overall_risk)) ≠ some "HIGH" := by
  decide

/-- C4 (amended): in spec scenario 2, `compute_upgrade_path(model, 1, 3)`
selects the 1-hop direct edge 1→3, expands it to the 2 steps 1→2 and 2→3,
and the returned `overallRisk` is `LOW`, recomputed from the expanded hops'
own edge metadata rather than inherited from the original HIGH edge. -/
theorem compute_scenario2_behavior :
    find_upgrade_path scenario2State 1 1 3 = some [(1, 3)] ∧
    expand_path_with_intermediates scenario2State 1 [(1, 3)] = [(1, 2), (2, 3)] ∧
    ((compute_upgrade_path scenario2DB 1 1 3 EngineState.init).2.map
      (fun r => (r.overall_risk, r.step_count,
        r.steps.map (fun st => (st.from_version_id, st.to_version_id))))) =
      some ("LOW", 2, [(1, 2), (2, 3)]) := by
  decide

/-- C5 (counterexample): `find_upgrade_path` returns the same value `none`
both when the target id (999) is not a node of the built graph and when both
endpoints (1 and 4) are nodes but no directed route connects them — the two
outcomes are conflated into one return value, not distinguishable by the
caller. -/
theorem find_upgrade_path_conflates_errors :
    find_upgrade_path disconnectedState 5 1 999 = none ∧
    find_upgrade_path disconnectedState 5 1 4 = none ∧
    find_upgrade_path disconnectedState 5 1 999 =
      find_upgrade_path disconnectedState 5 1 4 := by
  decide

/-- C5 (amended): `find_upgrade_path` returns `none` alike when an endpoint
is not a node of the built graph and when both endpoints are present but no
directed route connects them (the distinction survives only in log
messages); `none` is returned exactly in these cases. -/
theorem find_upgrade_path_none_iff (s : EngineState) (m f t : Nat) (g : DiGraph)
    (hg : dictGet s.model_graphs m = some g) :
    find_upgrade_path s m f t = none ↔
      (f ∉ g.nodes ∨ t ∉ g.nodes ∨ ¬ ∃ n, Reach g f t n) := by
  unfold find_upgrade_path
  rw [hg]
  dsimp only
  by_cases hmem : f ∉ g.nodes ∨ t ∉ g.nodes
  · rw [if_pos hmem]
    simp only [true_iff]
    rcases hmem with h | h
    · exact Or.inl h
    · exact Or.inr (Or.inl h)
  · rw [if_neg hmem]
    push_neg at hmem
    cases hsp : shortest_path g f t with
    | none =>
      simp only [true_iff]
      exact Or.inr (Or.inr (shortest_path_eq_none_iff.mp hsp))
    | some ns =>
      simp only [reduceCtorEq, false_iff, not_or, not_not]
      obtain ⟨j, hj, _⟩ := shortest_path_sound hsp
      exact ⟨hmem.1, hmem.2, j, hj⟩

/-- C6 (code bug): for a model with a single version 1 and no edges,
`find_upgrade_path(v, v)` returns the empty edge list `some []` (not an
error), yet `compute_upgrade_path(v, v)` returns `none` (the NotFound
outcome) because the Python guard `if not path_edges` is also taken by the
empty list — contradicting the spec, which returns NotFound only when
`findPath` itself returns NotFound and an empty step sequence for
`fromId == toId`. -/
theorem compute_upgrade_path_self_loop_bug :
    find_upgrade_path (build_graph_from_db singleVersionDB 6 EngineState.init)
      6 1 1 = some [] ∧
    (compute_upgrade_path singleVersionDB 6 1 1 EngineState.init).2 = none := by
  decide

/-- C7 (counterexample): building the graph for a model with no versions
writes NO cache entry at all — the cache does not hold an empty graph for
that model, contrary to the claim. -/
theorem build_empty_catalog_no_cache_entry :
    dictGet (build_graph_from_db emptyDB 7 EngineState.init).model_graphs 7 =
      none ∧
    (build_graph_from_db emptyDB 7 EngineState.init).model_graphs = [] := by
  decide

/-- C7 (amended): for every model id whose version set is empty, the build
returns with the engine state untouched (no cache entry is written, no
error is signalled), and a subsequent `compute_upgrade_path` for that model
(whose graph is therefore absent) returns the NotFound outcome `none`. -/
theorem build_empty_catalog_behavior (db : DB) (m : Nat) (s : EngineState)
    (f t : Nat) (hv : db.versionsFor m = []) :
    build_graph_from_db db m s = s ∧
    (dictGet s.model_graphs m = none →
      (compute_upgrade_path db m f t s).2 = none) := by
  have h1 : build_graph_from_db db m s = s := by
    unfold build_graph_from_db
    rw [if_pos hv]
  refine ⟨h1, fun hget => ?_⟩
  unfold compute_upgrade_path
  have h2 : (if (dictGet s.model_graphs m).isNone = true
      then build_graph_from_db db m s else s) = s := by
    rw [h1]
    split <;> rfl
  rw [h2]
  have h3 : find_upgrade_path s m f t = none := by
    unfold find_upgrade_path
    rw [hget]
  dsimp only
  rw [h3]

/-- C1: for every `(from, to)` pair defined both by an upgrade-path record
and by an `allowed = true` compatibility record of the same model, the built
graph contains exactly one edge for that pair, it carries the fields of an
upgrade-path record, and the compatibility-sourced edge with its defaults is
never stored for that pair. -/
theorem build_graph_precedence (db : DB) (m : Nat) (s : EngineState) (f t : Nat)
    (hv : db.versionsFor m ≠ [])
    (hp : ∃ p ∈ db.pathsFor m, p.from_version_id = f ∧ p.to_version_id = t)
    (_hc : ∃ c ∈ db.compatsFor m, c.from_version_id = f ∧ c.to_version_id = t) :
    ∃ g, dictGet (build_graph_from_db db m s).model_graphs m = some g ∧
      (g.edges.filter (fun e => e.1 = (f, t))).length = 1 ∧
      (∃ p ∈ db.pathsFor m, p.from_version_id = f ∧ p.to_version_id = t ∧
        g.getEdgeData f t = some (pathEdgeData p)) ∧
      (∀ c : CompatRow, g.getEdgeData f t ≠ some (compatEdgeData c)) := by
  unfold build_graph_from_db
  rw [if_neg hv]
  refine ⟨buildGraph (db.versionsFor m) (db.pathsFor m) (db.compatsFor m),
    dictGet_dictSet_self _ _ _, ?_⟩
  obtain ⟨hlen, p, hpmem, hpf, hpt, hdata⟩ :=
    buildGraph_precedence_core (db.versionsFor m) (db.pathsFor m)
      (db.compatsFor m) f t hp
  refine ⟨hlen, ⟨p, hpmem, hpf, hpt, hdata⟩, ?_⟩
  intro c hcdata
  rw [hdata] at hcdata
  have heq : pathEdgeData p = compatEdgeData c := by
    injection hcdata
  have h1 : (pathEdgeData p).path_id = some p.id := rfl
  have h2 : (compatEdgeData c).path_id = none := rfl
  rw [heq, h2] at h1
  exact Option.noConfusion h1

/-- C2: when the model's graph is built and both endpoints are nodes with
`to` reachable from `from`, `find_upgrade_path` returns the consecutive-pair
edge list of a valid walk whose edge count equals the true minimum hop
count; and the result is unchanged under any change of edge attributes that
keeps the node list and the edge keys (in order) — risk and downtime never
influence the selection.  (The search itself is the spec's BFS with
neighbors in edge-insertion order, `shortest_path` above.) -/
theorem find_upgrade_path_shortest (s : EngineState) (m f t : Nat) (g : DiGraph)
    (hg : dictGet s.model_graphs m = some g)
    (hf : f ∈ g.nodes) (ht : t ∈ g.nodes)
    (hreach : ∃ n, Reach g f t n) :
    (∃ es ns, find_upgrade_path s m f t = some es ∧ es = ns.zip ns.tail ∧
      ns.head? = some f ∧ ns.getLast? = some t ∧ chainB g ns = true ∧
      ns.length = es.length + 1 ∧
      Reach g f t es.length ∧ (∀ n, Reach g f t n → es.length ≤ n)) ∧
    (∀ (s2 : EngineState) (g2 : DiGraph),
      dictGet s2.model_graphs m = some g2 → g2.nodes = g.nodes →
      g2.edges.map Prod.fst = g.edges.map Prod.fst →
      find_upgrade_path s2 m f t = find_upgrade_path s m f t) := by
  constructor
  · obtain ⟨d, hd, hmin⟩ := reach_min hreach
    obtain ⟨ns, hns, hhead, hlast, hchain, hlen⟩ := shortest_path_of_reach hd hmin
    have hnpos : 0 < ns.length := by omega
    have heslen : (ns.zip ns.tail).length = d := by
      rw [zip_tail_length, hlen]
      omega
    refine ⟨ns.zip ns.tail, ns, ?_, rfl, hhead, hlast, hchain, ?_, ?_, ?_⟩
    · unfold find_upgrade_path
      rw [hg]
      dsimp only
      rw [if_neg (by simp [hf, ht]), hns]
    · rw [heslen, hlen]
    · rw [heslen]
      exact hd
    · rw [heslen]
      exact hmin
  · intro s2 g2 hg2 hn he
    unfold find_upgrade_path
    rw [hg, hg2]
    dsimp only
    rw [hn, shortest_path_structural he]

/-- C3: with the model's graph built, `expand_path_with_intermediates`
replaces each edge `(a, b)` whose graph edge carries non-empty mandatory
intermediates `[i1, ..., ik]` by exactly the chain
`(a, i1), (i1, i2), ..., (ik, b)` — the positional pairing
`(a :: [i1, ..., ik]).zip ([i1, ..., ik] ++ [b])` — and keeps every other
edge (empty intermediates, or no edge metadata in the graph) unchanged in
place. -/
theorem expand_path_with_intermediates_spec (s : EngineState) (m : Nat)
    (g : DiGraph) (hg : dictGet s.model_graphs m = some g)
    (path_edges : List (Nat × Nat)) :
    expand_path_with_intermediates s m path_edges =
      path_edges.flatMap (fun e =>
        match g.getEdgeData e.1 e.2 with
        | none => [e]
        | some d =>
          if d.mandatory_intermediates = [] then [e]
          else (e.1 :: d.mandatory_intermediates).zip
            (d.mandatory_intermediates ++ [e.2])) := by
  unfold expand_path_with_intermediates
  rw [hg]
  dsimp only
  rw [expand_foldl_spec g path_edges []]
  rfl

/-- C8: `calculate_total_downtime` returns the absent value exactly when no
step carries a downtime estimate (including the empty list and all-null
lists), and otherwise the sum of the non-null estimates (missing estimates
contribute nothing, i.e. count as 0); in particular a single step with
estimate 0 yields `some 0`, not absent, and steps 30/null/60 yield 90. -/
theorem calculate_total_downtime_spec (steps : List Step) :
    (calculate_total_downtime steps = none ↔
      ∀ st ∈ steps, st.estimated_downtime_minutes = none) ∧
    ((∃ st ∈ steps, st.estimated_downtime_minutes ≠ none) →
      calculate_total_downtime steps =
        some ((steps.filterMap (fun st => st.estimated_downtime_minutes)).sum)) ∧
    calculate_total_downtime [stepWithDowntime (some 0)] = some 0 ∧
    calculate_total_downtime
      [stepWithDowntime (some 30), stepWithDowntime none,
        stepWithDowntime (some 60)] = some 90 := by
  have hfold := downtime_foldl_spec steps (0, false)
  refine ⟨?_, ?_, by decide, by decide⟩
  · unfold calculate_total_downtime
    rw [hfold]
    dsimp only
    cases hany : steps.any (fun st => st.estimated_downtime_minutes.isSome) with
    | true =>
      simp only [Bool.false_or, if_true]
      constructor
      · intro h
        exact absurd h (by simp)
      · intro hall
        obtain ⟨st, hst, hsome⟩ := List.any_eq_true.mp hany
        rw [hall st hst] at hsome
        simp at hsome
    | false =>
      simp only [Bool.false_or, if_false]
      constructor
      · intro _ st hst
        have := List.any_eq_false.mp hany st hst
        simpa [Option.isSome_iff_ne_none] using this
      · intro _
        rfl
  · intro hex
    unfold calculate_total_downtime
    rw [hfold]
    dsimp only
    have hany : steps.any (fun st => st.estimated_downtime_minutes.isSome) = true := by
      obtain ⟨st, hst, hne⟩ := hex
      exact List.any_eq_true.mpr ⟨st, hst, by simpa [Option.isSome_iff_ne_none] using hne⟩
    rw [hany]
    simp

/-- C9: `validate_path` is a pure query of the current cache (it consumes
the engine state and returns only the verdict — the source method performs
no build and no mutation) with distinguishable failure reasons: a
graph-not-built reason when the model's graph is absent, a version-not-found
reason naming the missing endpoint, a no-path reason for two present but
disconnected nodes, and `(true, none)` exactly when the graph is built, both
endpoints are nodes, and a directed path exists. -/
theorem validate_path_spec (s : EngineState) (m f t : Nat) :
    (dictGet s.model_graphs m = none →
      validate_path s m f t = (false, some (ValidateError.noGraphAvailable m))) ∧
    (∀ g, dictGet s.model_graphs m = some g → f ∉ g.nodes →
      validate_path s m f t =
        (false, some (ValidateError.sourceVersionNotFound f))) ∧
    (∀ g, dictGet s.model_graphs m = some g → f ∈ g.nodes → t ∉ g.nodes →
      validate_path s m f t =
        (false, some (ValidateError.targetVersionNotFound t))) ∧
    (∀ g, dictGet s.model_graphs m = some g → f ∈ g.nodes → t ∈ g.nodes →
      ¬ (∃ n, Reach g f t n) →
      validate_path s m f t =
        (false, some (ValidateError.noUpgradePathExists f t))) ∧
    (validate_path s m f t = (true, none) ↔
      ∃ g, dictGet s.model_graphs m = some g ∧ f ∈ g.nodes ∧ t ∈ g.nodes ∧
        ∃ n, Reach g f t n) := by
  refine ⟨?_, ?_, ?_, ?_, ?_⟩
  · intro h
    unfold validate_path
    rw [h]
  · intro g hg hf
    unfold validate_path
    rw [hg]
    dsimp only
    rw [if_pos hf]
  · intro g hg hf ht
    unfold validate_path
    rw [hg]
    dsimp only
    rw [if_neg (by simp [hf]), if_pos ht]
  · intro g hg hf ht hnp
    unfold validate_path
    rw [hg]
    dsimp only
    rw [if_neg (by simp [hf]), if_neg (by simp [ht])]
    have : ¬ has_path g f t = true := fun hc => hnp (has_path_iff.mp hc)
    rw [if_pos this]
  · constructor
    · intro h
      cases hg : dictGet s.model_graphs m with
      | none =>
        unfold validate_path at h
        rw [hg] at h
        simp at h
      | some g =>
        unfold validate_path at h
        rw [hg] at h
        dsimp only at h
        by_cases hf : f ∈ g.nodes
        · by_cases ht : t ∈ g.nodes
          · by_cases hp : has_path g f t = true
            · exact ⟨g, rfl, hf, ht, has_path_iff.mp hp⟩
            · rw [if_neg (by simp [hf]), if_neg (by simp [ht]), if_pos hp] at h
              simp at h
          · rw [if_neg (by simp [hf]), if_pos ht] at h
            simp at h
        · rw [if_pos hf] at h
          simp at h
    · rintro ⟨g, hg, hf, ht, hr⟩
      unfold validate_path
      rw [hg]
      dsimp only
      have hp : has_path g f t = true := has_path_iff.mpr hr
      rw [if_neg (by simp [hf]), if_neg (by simp [ht]), if_neg (by simp [hp])]

/-- C10: building (or rebuilding) the graph for model `m` leaves the cached
graph of every other model unchanged, and changes the shared version map
only at the ids of the versions fetched for `m`. -/
theorem build_graph_frame (db : DB) (m m2 : Nat) (s : EngineState)
    (h : m2 ≠ m) :
    dictGet (build_graph_from_db db m s).model_graphs m2 =
      dictGet s.model_graphs m2 ∧
    ∀ vid, vid ∉ (db.versionsFor m).map (fun v => v.id) →
      dictGet (build_graph_from_db db m s).version_map vid =
        dictGet s.version_map vid := by
  unfold build_graph_from_db
  by_cases hv : db.versionsFor m = []
  · rw [if_pos hv]
    exact ⟨rfl, fun _ _ => rfl⟩
  · rw [if_neg hv]
    dsimp only
    constructor
    · exact dictGet_dictSet_ne _ _ _ _ h
    · intro vid hvid
      apply dictGet_dictUpdate_not_mem
      intro e he
      rcases foldl_dictSet_keys (fun v => v.id) versionDataOf
        (db.versionsFor m) [] e he with h2 | h2
      · simp at h2
      · intro hc
        exact hvid (hc ▸ h2)

/-! ### Witnesses instantiating the hypothesis-bearing claim theorems -/

/-- Witness for C1 at spec scenario 3: model 3, pair 2→3 covered by both an
upgrade-path row (MED, 15 minutes) and a compatibility row. -/
theorem build_graph_precedence_witness :
    ∃ g, dictGet (build_graph_from_db scenario3DB 3
        EngineState.init).model_graphs 3 = some g ∧
      (g.edges.filter (fun e => e.1 = (2, 3))).length = 1 ∧
      (∃ p ∈ scenario3DB.pathsFor 3, p.from_version_id = 2 ∧
        p.to_version_id = 3 ∧ g.getEdgeData 2 3 = some (pathEdgeData p)) ∧
      (∀ c : CompatRow, g.getEdgeData 2 3 ≠ some (compatEdgeData c)) :=
  build_graph_precedence scenario3DB 3 EngineState.init 2 3 (by decide)
    (by decide) (by decide)

/-- Witness for C2 at spec scenario 2: the query 1→3 on the built graph. -/
theorem find_upgrade_path_shortest_witness :
    dictGet scenario2State.model_graphs 1 = some scenario2Graph ∧
    (∃ es ns, find_upgrade_path scenario2State 1 1 3 = some es ∧
      es = ns.zip ns.tail ∧ ns.head? = some 1 ∧ ns.getLast? = some 3 ∧
      chainB scenario2Graph ns = true ∧ ns.length = es.length + 1 ∧
      Reach scenario2Graph 1 3 es.length ∧
      (∀ n, Reach scenario2Graph 1 3 n → es.length ≤ n)) :=
  ⟨by decide,
    (find_upgrade_path_shortest scenario2State 1 1 3 scenario2Graph (by decide)
      (by decide) (by decide)
      ⟨1, Reach.step (by decide) (Reach.refl 3)⟩).1⟩

/-- Witness for C3 at spec scenario 2: expanding the direct edge 1→3. -/
theorem expand_path_with_intermediates_spec_witness :
    dictGet scenario2State.model_graphs 1 = some scenario2Graph ∧
    expand_path_with_intermediates scenario2State 1 [(1, 3)] =
      [(1, 3)].flatMap (fun e =>
        match scenario2Graph.getEdgeData e.1 e.2 with
        | none => [e]
        | some d =>
          if d.mandatory_intermediates = [] then [e]
          else (e.1 :: d.mandatory_intermediates).zip
            (d.mandatory_intermediates ++ [e.2])) :=
  ⟨by decide,
    expand_path_with_intermediates_spec scenario2State 1 scenario2Graph
      (by decide) [(1, 3)]⟩

/-- Witness for C5 (amended): a query whose target id is not a node yields
`none`. -/
theorem find_upgrade_path_none_iff_witness :
    dictGet disconnectedState.model_graphs 5 = some disconnectedGraph ∧
    find_upgrade_path disconnectedState 5 1 999 = none :=
  ⟨by decide,
    (find_upgrade_path_none_iff disconnectedState 5 1 999 disconnectedGraph
      (by decide)).mpr (Or.inr (Or.inl (by decide)))⟩

/-- Witness for C7 (amended) at the empty database. -/
theorem build_empty_catalog_behavior_witness :
    emptyDB.versionsFor 7 = [] ∧
    build_graph_from_db emptyDB 7 EngineState.init = EngineState.init ∧
    (compute_upgrade_path emptyDB 7 1 2 EngineState.init).2 = none := by
  have h := build_empty_catalog_behavior emptyDB 7 EngineState.init 1 2 (by decide)
  exact ⟨by decide, h.1, h.2 (by decide)⟩

/-- Witness for C8 at spec scenario 5: steps 30/null/60 total 90, and a
single null step totals to the absent value. -/
theorem calculate_total_downtime_spec_witness :
    calculate_total_downtime
      [stepWithDowntime (some 30), stepWithDowntime none,
        stepWithDowntime (some 60)] = some 90 ∧
    calculate_total_downtime [stepWithDowntime none] = none := by
  have h := calculate_total_downtime_spec
    [stepWithDowntime (some 30), stepWithDowntime none, stepWithDowntime (some 60)]
  have h2 := calculate_total_downtime_spec [stepWithDowntime none]
  constructor
  · have h3 := h.2.1 ⟨stepWithDowntime (some 30), by decide, by decide⟩
    rw [h3]
    decide
  · exact h2.1.mpr (by decide)

/-- Witness for C9: a valid 1→3 query and a missing-target 1→999 query on
the built disconnected-model graph. -/
theorem validate_path_spec_witness :
    validate_path disconnectedState 5 1 3 = (true, none) ∧
    validate_path disconnectedState 5 1 999 =
      (false, some (ValidateError.targetVersionNotFound 999)) := by
  have h := validate_path_spec disconnectedState 5 1 3
  have h2 := validate_path_spec disconnectedState 5 1 999
  constructor
  · exact h.2.2.2.2.mpr ⟨disconnectedGraph, by decide, by decide, by decide,
      ⟨2, @Reach.step disconnectedGraph 1 2 3 1 (by decide)
        (@Reach.step disconnectedGraph 2 3 3 0 (by decide) (Reach.refl 3))⟩⟩
  · exact h2.2.2.1 disconnectedGraph (by decide) (by decide) (by decide)

/-- Witness for C10: building model 1 leaves model 2's cached graph and
version-map entry untouched. -/
theorem build_graph_frame_witness :
    dictGet (build_graph_from_db twoModelDB 1
        (build_graph_from_db twoModelDB 2 EngineState.init)).model_graphs 2 =
      dictGet (build_graph_from_db twoModelDB 2 EngineState.init).model_graphs 2 ∧
    dictGet (build_graph_from_db twoModelDB 1
        (build_graph_from_db twoModelDB 2 EngineState.init)).version_map 2 =
      dictGet (build_graph_from_db twoModelDB 2 EngineState.init).version_map 2 := by
  have h := build_graph_frame twoModelDB 1 2
    (build_graph_from_db twoModelDB 2 EngineState.init) (by decide)
  exact ⟨h.1, h.2 2 (by decide)⟩

end UpgradeEngine
